import Mathlib

/-!
Verification development for the zenml pipeline-execution core.

The repository's visible files are CI configuration, documentation and an
example notebook; the execution core itself (DAG builder, orchestrator,
cache resolver, artifact store, metadata store) is described by the design
specification.  The definitions below embed that core: components absent
from the source tree are modelled from the specification text, while the
test-coverage shell script is embedded from its source file.
-/

namespace ZenML

/-- Decidable equality of `Except` results, used to evaluate the
embedded operations on concrete inputs. -/
instance {ε α : Type} [DecidableEq ε] [DecidableEq α] : DecidableEq (Except ε α) :=
  fun x y =>
    match x, y with
    | .ok a, .ok b =>
      if h : a = b then .isTrue (by rw [h]) else
        .isFalse (fun hc => h (Except.ok.inj hc))
    | .error a, .error b =>
      if h : a = b then .isTrue (by rw [h]) else
        .isFalse (fun hc => h (Except.error.inj hc))
    | .ok _, .error _ => .isFalse (fun hc => Except.noConfusion hc)
    | .error _, .ok _ => .isFalse (fun hc => Except.noConfusion hc)

/-- Status of one StepExecution, as listed in the data model
(pending, running, cached, completed, failed) together with the
`aborted` status from the concurrency section and the `not run`
marker used for downstream steps of a failed run. -/
inductive StepStatus where
  | pending
  | running
  | completed
  | cached
  | failed
  | aborted
  | notRun
deriving DecidableEq, Repr

/-- Terminal statuses: completed, cached, failed, aborted. -/
def StepStatus.isTerminal : StepStatus → Bool
  | .completed => true
  | .cached => true
  | .failed => true
  | .aborted => true
  | _ => false

/-- Position of a status along the monotone lifecycle
pending → running → terminal. -/
def StepStatus.rank : StepStatus → Nat
  | .pending => 0
  | .notRun => 0
  | .running => 1
  | _ => 2

/-- Error raised by the metadata store on an illegal status update. -/
inductive MetaError where
  | invalidStateTransition
deriving DecidableEq, Repr

/-- Modelled from the spec: `update_step_status` of the Metadata Store,
which is absent from the source tree.  Updates must be monotonic along
pending → running → {completed|cached|failed|aborted}; any attempt to
transition out of a terminal state fails with
`InvalidStateTransitionError`. -/
def updateStepStatus (cur target : StepStatus) : Except MetaError StepStatus :=
  if cur.isTerminal then .error .invalidStateTransition
  else if cur.rank < target.rank then .ok target
  else .error .invalidStateTransition

/-- Applying an update to the stored status: on an error the stored
status is left unchanged. -/
def applyUpdate (cur target : StepStatus) : StepStatus × Except MetaError Unit :=
  match updateStepStatus cur target with
  | .ok t => (t, .ok ())
  | .error e => (cur, .error e)

/-- Non-reproducible ambient signals available to an execution:
wall-clock time, process identity and an entropy source. -/
structure ExecContext where
  wallClock : Nat
  processId : Nat
  entropy : Nat
deriving DecidableEq, Repr

/-- A cache key: fingerprint of step code identity, resolved
configuration values and ordered input-artifact identities. -/
structure CacheKey where
  codeId : Nat
  config : List Nat
  inputIds : List Nat
deriving DecidableEq, Repr

/-- Modelled from the spec: the Cache Resolver's CacheKey computation,
absent from the source tree.  It receives the ambient execution context
but derives the key only from the triple (step code identity, resolved
configuration, ordered input artifact identities). -/
def computeCacheKey (_ctx : ExecContext) (codeId : Nat) (config : List Nat)
    (inputIds : List Nat) : CacheKey :=
  { codeId := codeId, config := config, inputIds := inputIds }

/-- A durable reference to a stored artifact. -/
structure ArtifactRef where
  id : Nat
deriving DecidableEq, Repr

/-- Error reported by the Artifact Store when a write fails. -/
inductive ArtifactError where
  | writeFailed
deriving DecidableEq, Repr

/-- Modelled from the spec: the Artifact Store state, absent from the
source tree: a fresh-id counter and the stored payloads. -/
structure ArtifactStore (V : Type) where
  nextId : Nat
  data : List (Nat × V)
deriving Repr

/-- Reading a reference returns the stored payload, if any. -/
def readArtifact {V : Type} (s : ArtifactStore V) (r : ArtifactRef) : Option V :=
  (s.data.find? (fun p => p.1 = r.id)).map (fun p => p.2)

/-- Modelled from the spec: `write(run_id, step_name, output_name, value)`
of the Artifact Store, absent from the source tree.  The boolean models
whether the backend I/O succeeds; on failure the write is reported failed
and the store is unchanged, on success a fresh write-once reference is
allocated. -/
def writeArtifact {V : Type} (s : ArtifactStore V)
    (_runId _stepName _outputName : String) (v : V) (backendOk : Bool) :
    ArtifactStore V × Except ArtifactError ArtifactRef :=
  if backendOk then
    ({ nextId := s.nextId + 1, data := (s.nextId, v) :: s.data }, .ok { id := s.nextId })
  else
    (s, .error .writeFailed)

/-- Well-formed artifact store: every stored id is below the counter. -/
def ArtifactStore.wf {V : Type} (s : ArtifactStore V) : Prop :=
  ∀ p ∈ s.data, p.1 < s.nextId

/-- Error raised by the metadata store on run bookkeeping. -/
inductive RunError where
  | duplicateRunName
  | runImmutable
  | noSuchRun
deriving DecidableEq, Repr

/-- Record of one Run of a pipeline: name, completion flag and an
append-only event history. -/
structure RunRecord where
  rname : String
  isCompleted : Bool
  history : List String
deriving DecidableEq, Repr

/-- Modelled from the spec: the per-pipeline run registry of the
Metadata Store, absent from the source tree. -/
structure PipelineRuns where
  runs : List RunRecord
deriving DecidableEq, Repr

/-- Modelled from the spec: `create_run` of the Metadata Store, absent
from the source tree.  Run names are unique within a pipeline: a name
already in use is rejected, otherwise a fresh run is appended. -/
def createRun (p : PipelineRuns) (name : String) :
    PipelineRuns × Except RunError Unit :=
  if p.runs.any (fun r => r.rname = name) then
    (p, .error .duplicateRunName)
  else
    ({ runs := p.runs ++ [{ rname := name, isCompleted := false, history := [] }] }, .ok ())

/-- Modelled from the spec: appending an event to a run's history,
absent from the source tree.  A run, once completed, is immutable:
appends to a completed run are rejected; otherwise history is
append-only. -/
def appendRunEvent (p : PipelineRuns) (name : String) (ev : String) :
    PipelineRuns × Except RunError Unit :=
  match p.runs.find? (fun r => r.rname = name) with
  | none => (p, .error .noSuchRun)
  | some r =>
    if r.isCompleted then
      (p, .error .runImmutable)
    else
      ({ runs := p.runs.map (fun q =>
            if q.rname = name then { q with history := q.history ++ [ev] } else q) },
       .ok ())

/-- An input declaration of a Step: input name and declared type. -/
structure InputSpec where
  iname : String
  ty : String
deriving DecidableEq, Repr

/-- An output declaration of a Step: output name and declared type. -/
structure OutputSpec where
  oname : String
  ty : String
deriving DecidableEq, Repr

/-- Modelled from the spec: a Step declaration, absent from the source
tree: a name, typed inputs and outputs, a code identity, resolved
configuration values, and the cache-enable flag (steps may opt out of
caching as in the notebook's `enable_cache=False`). -/
structure StepDecl where
  name : String
  inputs : List InputSpec
  outputs : List OutputSpec
  codeId : Nat
  config : List Nat
  enableCache : Bool
deriving DecidableEq, Repr

/-- A binding for one step input: either a named output of a producer
step, or a pipeline-level literal of a given type. -/
inductive Binding where
  | fromStep (producer output : String)
  | literal (ty : String)
deriving DecidableEq, Repr

/-- Modelled from the spec: a step-wiring input to the DAG Builder,
absent from the source tree: a named collection of Steps plus a wiring
of named outputs to named inputs. -/
structure Wiring where
  steps : List StepDecl
  bindings : List ((String × String) × Binding)
deriving Repr

/-- Names of the declared steps, in declaration order. -/
def stepNames (w : Wiring) : List String :=
  w.steps.map (fun s => s.name)

/-- The binding attached to input `iname` of step `sname`, if any. -/
def lookupBinding (w : Wiring) (sname iname : String) : Option Binding :=
  (w.bindings.find? (fun b => b.1 = (sname, iname))).map (fun b => b.2)

/-- The declaration of the step called `n`, if any. -/
def declOf (w : Wiring) (n : String) : Option StepDecl :=
  w.steps.find? (fun s => s.name = n)

/-- The declared producer steps of `s`: for each input bound to an
output of an existing step, that step's name. -/
def depsOf (w : Wiring) (s : StepDecl) : List String :=
  s.inputs.filterMap (fun i =>
    match lookupBinding w s.name i.iname with
    | some (.fromStep p _) => if (declOf w p).isSome then some p else none
    | _ => none)

/-- Build-time errors of the DAG Builder. -/
inductive BuildError where
  | graphCycle (steps : List String)
  | unresolvedInput (step input : String)
  | typeMismatch (step input : String)
deriving DecidableEq, Repr

/-- Modelled from the spec: resolution of one declared input, absent
from the source tree.  An unbound input, a missing producer step or a
missing producer output is an `UnresolvedInputError`; a bound input
whose types disagree is a `TypeMismatchError`. -/
def resolveInput (w : Wiring) (sname : String) (i : InputSpec) :
    Except BuildError Unit :=
  match lookupBinding w sname i.iname with
  | none => .error (.unresolvedInput sname i.iname)
  | some (.literal ty) =>
    if ty = i.ty then .ok () else .error (.typeMismatch sname i.iname)
  | some (.fromStep p o) =>
    match declOf w p with
    | none => .error (.unresolvedInput sname i.iname)
    | some pd =>
      match pd.outputs.find? (fun os => os.oname = o) with
      | none => .error (.unresolvedInput sname i.iname)
      | some os =>
        if os.ty = i.ty then .ok () else .error (.typeMismatch sname i.iname)

/-- Resolution of all inputs of one step, first error wins. -/
def validateStepInputs (w : Wiring) (sname : String) :
    List InputSpec → Except BuildError Unit
  | [] => .ok ()
  | i :: rest =>
    match resolveInput w sname i with
    | .ok _ => validateStepInputs w sname rest
    | .error e => .error e

/-- Resolution of all inputs of all steps, first error wins. -/
def validateInputs (w : Wiring) : List StepDecl → Except BuildError Unit
  | [] => .ok ()
  | s :: rest =>
    match validateStepInputs w s.name s.inputs with
    | .ok _ => validateInputs w rest
    | .error e => .error e

/-- Modelled from the spec: the topological-sort loop of the DAG
Builder, absent from the source tree.  Repeatedly appends the first
step, in declaration order, all of whose producers are already placed;
if no step is ready while some remain, the remaining steps form the
cyclic residue reported by `GraphCycleError`. -/
def topoAux (w : Wiring) : Nat → List StepDecl → List String →
    Except BuildError (List String)
  | _, [], acc => .ok acc
  | 0, rem, _ => .error (.graphCycle (rem.map (fun s => s.name)))
  | fuel + 1, rem, acc =>
    match rem.find? (fun s => (depsOf w s).all (fun d => acc.contains d)) with
    | none => .error (.graphCycle (rem.map (fun s => s.name)))
    | some s => topoAux w fuel (rem.filter (fun x => x.name ≠ s.name)) (acc ++ [s.name])

/-- Topological sort of the declared steps. -/
def topoSort (w : Wiring) : Except BuildError (List String) :=
  topoAux w w.steps.length w.steps []

/-- Modelled from the spec: the DAG Builder, absent from the source
tree.  Checks acyclicity (reporting the cyclic residue), then resolves
every declared input, and returns the topologically sorted execution
order; construction is pure. -/
def buildDag (w : Wiring) : Except BuildError (List String) :=
  match topoSort w with
  | .error e => .error e
  | .ok order =>
    match validateInputs w w.steps with
    | .error e => .error e
    | .ok _ => .ok order

/-- Acyclicity of the declared dependency graph: a rank function under
which every producer ranks strictly below its consumer. -/
def Acyclic (w : Wiring) : Prop :=
  ∃ rank : String → Nat, ∀ s ∈ w.steps, ∀ d ∈ depsOf w s, rank d < rank s.name

/-- Cyclicity of the declared dependency graph: a nonempty set of step
names each of which depends on a member of the set. -/
def Cyclic (w : Wiring) : Prop :=
  ∃ c : List String, c ≠ [] ∧
    ∀ n ∈ c, ∃ s ∈ w.steps, s.name = n ∧ ∃ d ∈ depsOf w s, d ∈ c

/-- The declaration-order greedy choice after a given placed prefix:
the first declared step not yet placed all of whose producers are
placed. -/
def greedyAt (w : Wiring) (pre : List String) : Option String :=
  ((w.steps.filter (fun s => !pre.contains s.name)).find?
      (fun s => (depsOf w s).all (fun d => pre.contains d))).map (fun s => s.name)

/-- One StepExecution record in the Metadata Store: owning pipeline and
run, step name, status, cache key, and references (identities) of the
produced output artifacts. -/
structure ExecRecord where
  pipeline : String
  runName : String
  stepName : String
  status : StepStatus
  key : CacheKey
  outputRefs : List Nat
deriving DecidableEq, Repr

/-- State threaded through one orchestrated run: the append-only
metadata record list, the artifact-store fresh-id counter, this run's
bindings of step name to produced output references, and the list of
steps whose logic was actually invoked. -/
structure ExecState where
  meta : List ExecRecord
  counter : Nat
  outMap : List (String × List Nat)
  invoked : List String
deriving DecidableEq, Repr

/-- The output references bound to a step name in this run, if any. -/
def getOut (outMap : List (String × List Nat)) (n : String) : Option (List Nat) :=
  (outMap.find? (fun p => p.1 = n)).map (fun p => p.2)

/-- Index of output `o` within the producer's declared outputs. -/
def outIndex (pd : StepDecl) (o : String) : Nat :=
  (pd.outputs.map (fun os => os.oname)).indexOf o

/-- The ordered input-artifact identities of step `s` in this run: for
each input bound to an existing producer's output, the reference that
the producer bound for that output. -/
def inputRefsOf (w : Wiring) (outMap : List (String × List Nat))
    (s : StepDecl) : List Nat :=
  s.inputs.filterMap (fun i =>
    match lookupBinding w s.name i.iname with
    | some (.fromStep p o) =>
      match declOf w p with
      | some pd => some ((((getOut outMap p).getD []).get? (outIndex pd o)).getD 0)
      | none => none
    | _ => none)

/-- Modelled from the spec: the Cache Resolver's lookup, absent from
the source tree: the first prior StepExecution of the same pipeline
carrying an identical CacheKey and terminal status completed or
cached. -/
def findCacheHit (meta : List ExecRecord) (pipeline : String) (k : CacheKey) :
    Option ExecRecord :=
  meta.find? (fun r =>
    r.pipeline = pipeline ∧ (r.status = .completed ∨ r.status = .cached) ∧ r.key = k)

/-- Modelled from the spec: orchestration of a single step, absent from
the source tree.  Computes the run's input references and the CacheKey;
on a cache hit (unless the step disabled caching) records a `cached`
execution bound to the prior execution's artifact references without
invoking the step's logic; on a miss invokes the logic (`behavior` tells
whether it raises): on success it allocates fresh artifact references
and records `completed`, on an error it records `failed` and tells the
orchestrator to stop.  Returns the new state and whether to continue. -/
def execStep (w : Wiring) (pipeline runName : String) (behavior : String → Bool)
    (ctx : ExecContext) (s : ExecState) (n : String) : ExecState × Bool :=
  match declOf w n with
  | none => (s, true)
  | some st =>
    let refs := inputRefsOf w s.outMap st
    let k := computeCacheKey ctx st.codeId st.config refs
    match (if st.enableCache then findCacheHit s.meta pipeline k else none) with
    | some r =>
      ({ s with
          meta := s.meta ++
            [{ pipeline := pipeline, runName := runName, stepName := n,
               status := .cached, key := k, outputRefs := r.outputRefs }],
          outMap := s.outMap ++ [(n, r.outputRefs)] }, true)
    | none =>
      if behavior n then
        let newRefs := (List.range st.outputs.length).map (fun j => s.counter + j)
        ({ meta := s.meta ++
              [{ pipeline := pipeline, runName := runName, stepName := n,
                 status := .completed, key := k, outputRefs := newRefs }],
           counter := s.counter + st.outputs.length,
           outMap := s.outMap ++ [(n, newRefs)],
           invoked := s.invoked ++ [n] }, true)
      else
        ({ s with
            meta := s.meta ++
              [{ pipeline := pipeline, runName := runName, stepName := n,
                 status := .failed, key := k, outputRefs := [] }],
            invoked := s.invoked ++ [n] }, false)

/-- After a failure, every not-yet-started step of the run is marked
`not run`; none of them is invoked. -/
def markNotRun (pipeline runName : String) (ns : List String) (s : ExecState) :
    ExecState :=
  { s with
      meta := s.meta ++ ns.map (fun n =>
        { pipeline := pipeline, runName := runName, stepName := n,
          status := .notRun, key := { codeId := 0, config := [], inputIds := [] },
          outputRefs := [] }) }

/-- Modelled from the spec: the sequential Orchestrator walking a
validated execution order, absent from the source tree.  Each step is
executed at most once, in order; on a step failure the remaining steps
are marked `not run`, no retry happens, and the run as a whole fails
(the boolean result is the run's success). -/
def execOrder (w : Wiring) (pipeline runName : String) (behavior : String → Bool)
    (ctx : ExecContext) : List String → ExecState → ExecState × Bool
  | [], s => (s, true)
  | n :: rest, s =>
    match execStep w pipeline runName behavior ctx s n with
    | (s1, true) => execOrder w pipeline runName behavior ctx rest s1
    | (s1, false) => (markNotRun pipeline runName rest s1, false)

/-- Modelled from the spec: full pipeline construction followed by
execution, absent from the source tree.  Build-time errors abort before
any execution: on a build error no run state exists at all. -/
def constructAndRun (w : Wiring) (pipeline runName : String)
    (behavior : String → Bool) (ctx : ExecContext)
    (meta0 : List ExecRecord) (counter0 : Nat) :
    Except BuildError (ExecState × Bool) :=
  match buildDag w with
  | .error e => .error e
  | .ok order =>
    .ok (execOrder w pipeline runName behavior ctx order
      { meta := meta0, counter := counter0, outMap := [], invoked := [] })

/-- The record of step `n` within run `rn`, if any. -/
def recordOf (meta : List ExecRecord) (rn n : String) : Option ExecRecord :=
  meta.find? (fun r => r.runName = rn ∧ r.stepName = n)

/-- The cache-stable steps of an execution order: those with caching
enabled all of whose producers are themselves cache-stable.  These are
exactly the steps whose upstream artifacts are byte-identical across
re-runs. -/
def stableSteps (w : Wiring) (order : List String) : List String :=
  order.foldl (fun acc n =>
    match declOf w n with
    | some st =>
      if st.enableCache && (depsOf w st).all (fun d => acc.contains d) then
        acc ++ [n]
      else acc
    | none => acc) []

/-- A node of a validated DAG handed to the Orchestrator: a step name
and the names of its upstream steps. -/
structure DagNode where
  name : String
  deps : List String
deriving DecidableEq, Repr

/-- Observable events of an orchestrated run: a step starting, and the
Metadata Store durably committing a step's status. -/
inductive Event where
  | started (step : String)
  | committed (step : String) (st : StepStatus)
deriving DecidableEq, Repr

/-- A configuration of the Orchestrator: the per-step statuses held by
the Metadata Store and the trace of events so far. -/
structure Orch where
  state : String → StepStatus
  trace : List Event

/-- Pointwise update of the status map. -/
def setStat (f : String → StepStatus) (n : String) (v : StepStatus) :
    String → StepStatus :=
  fun m => if m = n then v else f m

/-- Modelled from the spec: one scheduling action of the Orchestrator,
absent from the source tree, covering both the sequential and the
distributed variant (the relation permits any interleaving among
independent steps).  A step may start only while pending and only once
every one of its upstream steps has a terminal status durably recorded;
finishing a running step commits a terminal status. -/
inductive OrchStep (dag : List DagNode) : Orch → Orch → Prop
  | start (c : Orch) (nd : DagNode) (hmem : nd ∈ dag)
      (hpend : c.state nd.name = .pending)
      (hups : ∀ d ∈ nd.deps, (c.state d).isTerminal = true) :
      OrchStep dag c
        { state := setStat c.state nd.name .running,
          trace := c.trace ++ [.started nd.name] }
  | finish (c : Orch) (nd : DagNode) (hmem : nd ∈ dag) (t : StepStatus)
      (hrun : c.state nd.name = .running) (hterm : t.isTerminal = true) :
      OrchStep dag c
        { state := setStat c.state nd.name t,
          trace := c.trace ++ [.committed nd.name t] }

/-- The initial configuration: every step pending, empty trace. -/
def orchInit : Orch :=
  { state := fun _ => .pending, trace := [] }

/-- Configurations reachable by the Orchestrator from the initial one. -/
def Reachable (dag : List DagNode) (c : Orch) : Prop :=
  Relation.ReflTransGen (OrchStep dag) orchInit c

/-- Number of start events for step `n` in a trace. -/
def countStarted (tr : List Event) (n : String) : Nat :=
  tr.countP (fun e => e = .started n)

/-- The quickstart wiring: importer feeding trainer and evaluator,
with caching disabled on the evaluator. -/
def sampleWiring : Wiring :=
  { steps :=
      [ { name := "importer", inputs := [],
          outputs := [⟨"X_train", "ndarray"⟩, ⟨"y_train", "ndarray"⟩,
            ⟨"X_test", "ndarray"⟩, ⟨"y_test", "ndarray"⟩],
          codeId := 1, config := [], enableCache := true },
        { name := "trainer",
          inputs := [⟨"X_train", "ndarray"⟩, ⟨"y_train", "ndarray"⟩],
          outputs := [⟨"model", "model"⟩],
          codeId := 2, config := [1], enableCache := true },
        { name := "evaluator",
          inputs := [⟨"X_test", "ndarray"⟩, ⟨"y_test", "ndarray"⟩, ⟨"model", "model"⟩],
          outputs := [⟨"accuracy", "float"⟩],
          codeId := 3, config := [], enableCache := false } ],
    bindings :=
      [ (("trainer", "X_train"), .fromStep "importer" "X_train"),
        (("trainer", "y_train"), .fromStep "importer" "y_train"),
        (("evaluator", "X_test"), .fromStep "importer" "X_test"),
        (("evaluator", "y_test"), .fromStep "importer" "y_test"),
        (("evaluator", "model"), .fromStep "trainer" "model") ] }

/-- A two-step wiring whose steps feed each other: a cycle. -/
def cyclicWiring : Wiring :=
  { steps :=
      [ { name := "a", inputs := [⟨"x", "T"⟩], outputs := [⟨"o", "T"⟩],
          codeId := 1, config := [], enableCache := true },
        { name := "b", inputs := [⟨"y", "T"⟩], outputs := [⟨"o", "T"⟩],
          codeId := 2, config := [], enableCache := true } ],
    bindings :=
      [ (("a", "x"), .fromStep "b" "o"),
        (("b", "y"), .fromStep "a" "o") ] }

end ZenML

namespace CoverageScript

/-- Commands of the test-coverage shell script, in source order:
the TEST_SRC assignment, the two exports, then the four coverage
commands. -/
inductive Cmd where
  | assignTestSrc
  | exportZenmlDebug
  | exportAnalyticsOptOut
  | coverageRunPytest
  | coverageCombine
  | coverageReport
  | coverageXml
deriving DecidableEq, Repr

/-- The command sequence of the script body, in source order. -/
def script : List Cmd :=
  [.assignTestSrc, .exportZenmlDebug, .exportAnalyticsOptOut,
   .coverageRunPytest, .coverageCombine, .coverageReport, .coverageXml]

/-- Variable assignments and exports always exit with status 0. -/
def Cmd.alwaysZero : Cmd → Bool
  | .assignTestSrc => true
  | .exportZenmlDebug => true
  | .exportAnalyticsOptOut => true
  | _ => false

/-- Exit status of one command, given the environment's statuses for
the external commands. -/
def exitOf (env : Cmd → Nat) (c : Cmd) : Nat :=
  if c.alwaysZero then 0 else env c

/-- Execution under `set -e`: commands run in order; the first nonzero
exit status terminates the script immediately with that status.
Returns the list of commands that were executed and the final exit
status. -/
def runSetE (env : Cmd → Nat) : List Cmd → List Cmd × Nat
  | [] => ([], 0)
  | c :: rest =>
    if exitOf env c = 0 then
      let r := runSetE env rest
      (c :: r.1, r.2)
    else
      ([c], exitOf env c)

end CoverageScript

namespace ZenML

lemma update_ok_source_not_terminal (a b t : StepStatus)
    (h : updateStepStatus a b = .ok t) :
    t = b ∧ a.isTerminal = false ∧ a.rank < t.rank := by
  cases hb : a.isTerminal with
  | true =>
    unfold updateStepStatus at h
    rw [hb] at h
    simp at h
  | false =>
    unfold updateStepStatus at h
    rw [hb] at h
    simp only [Bool.false_eq_true, if_false] at h
    by_cases h2 : a.rank < b.rank
    · rw [if_pos h2] at h
      injection h with h3
      exact ⟨h3.symm, rfl, h3 ▸ h2⟩
    · rw [if_neg h2] at h
      simp at h

/-- C5: StepExecution status updates are monotone along
pending → running → terminal; a terminal status is entered at most once
(every non-final status of a successful update chain is non-terminal),
and any attempted transition out of a terminal state fails with
`InvalidStateTransitionError` while the stored status stays unchanged. -/
theorem stepExecution_status_monotone (cur target : StepStatus) (l : List StepStatus) :
    (cur.isTerminal = true →
      applyUpdate cur target = (cur, .error .invalidStateTransition)) ∧
    (∀ t, updateStepStatus cur target = .ok t →
      t = target ∧ cur.isTerminal = false ∧ cur.rank < t.rank) ∧
    (List.Chain (fun a b => updateStepStatus a b = .ok b) cur l →
      ∀ a ∈ (cur :: l).dropLast, a.isTerminal = false) := by
  refine ⟨?_, ?_, ?_⟩
  · intro h
    have : updateStepStatus cur target = .error .invalidStateTransition := by
      unfold updateStepStatus
      simp [h]
    simp [applyUpdate, this]
  · intro t h
    exact update_ok_source_not_terminal cur target t h
  · intro hchain
    induction l generalizing cur with
    | nil => simp
    | cons b l ih =>
      rcases List.chain_cons.mp hchain with ⟨hr, hch⟩
      intro a ha
      rw [List.dropLast_cons₂] at ha
      rcases List.mem_cons.mp ha with h | h
      · subst h
        exact (update_ok_source_not_terminal a b b hr).2.1
      · exact ih b hch a h

/-- Witness for C5 at a concrete terminal status. -/
theorem stepExecution_status_monotone_witness :
    applyUpdate .completed .running =
      (.completed, .error .invalidStateTransition) :=
  (stepExecution_status_monotone .completed .running []).1 rfl

lemma topoAux_nil (w : Wiring) (fuel : Nat) (acc : List String) :
    topoAux w fuel [] acc = .ok acc := by
  cases fuel <;> rfl

lemma depsOf_mem_decl (w : Wiring) (s : StepDecl) (d : String)
    (h : d ∈ depsOf w s) : ∃ sd ∈ w.steps, sd.name = d := by
  unfold depsOf at h
  rcases List.mem_filterMap.mp h with ⟨i, _, hi⟩
  rcases hb : lookupBinding w s.name i.iname with _ | b
  · rw [hb] at hi
    simp at hi
  · rw [hb] at hi
    cases b with
    | literal ty => simp at hi
    | fromStep p o =>
      simp only at hi
      by_cases hp : (declOf w p).isSome
      · rw [if_pos hp] at hi
        injection hi with hi
        subst hi
        rcases Option.isSome_iff_exists.mp hp with ⟨sd, hsd⟩
        refine ⟨sd, List.mem_of_find?_eq_some hsd, ?_⟩
        have := List.find?_some hsd
        simpa using this
      · rw [if_neg hp] at hi
        simp at hi

lemma depsOf_sub_stepNames (w : Wiring) (s : StepDecl) (d : String)
    (h : d ∈ depsOf w s) : d ∈ stepNames w := by
  rcases depsOf_mem_decl w s d h with ⟨sd, hsd, hname⟩
  exact hname ▸ List.mem_map_of_mem (fun x => x.name) hsd

lemma rem_filter_step (w : Wiring) (acc : List String) (rem : List StepDecl)
    (nm : String) (hrem : rem = w.steps.filter (fun x => !acc.contains x.name)) :
    rem.filter (fun x => decide (x.name ≠ nm)) =
      w.steps.filter (fun x => !(acc ++ [nm]).contains x.name) := by
  subst hrem
  rw [List.filter_filter]
  refine List.filter_congr ?_
  intro x _
  simp [decide_not, Bool.and_comm]

lemma nodup_map_name_eq (w : Wiring) (hnd : (stepNames w).Nodup)
    (a b : StepDecl) (ha : a ∈ w.steps) (hb : b ∈ w.steps)
    (hab : a.name = b.name) : a = b :=
  List.inj_on_of_nodup_map hnd ha hb hab

lemma topoAux_ok_props (w : Wiring) (hnd : (stepNames w).Nodup) :
    ∀ fuel rem acc order,
      rem = w.steps.filter (fun x => !acc.contains x.name) →
      acc.Nodup →
      (∀ n ∈ acc, n ∈ stepNames w) →
      (∀ k, ∀ hk : k < acc.length, greedyAt w (acc.take k) = some (acc.get ⟨k, hk⟩)) →
      (∀ s ∈ w.steps, ∀ i, ∀ hi : i < acc.length, acc.get ⟨i, hi⟩ = s.name →
        ∀ d ∈ depsOf w s, d ∈ acc.take i) →
      topoAux w fuel rem acc = .ok order →
      order.Nodup ∧ (∀ n, n ∈ order ↔ n ∈ stepNames w) ∧
      (∀ k, ∀ hk : k < order.length, greedyAt w (order.take k) = some (order.get ⟨k, hk⟩)) ∧
      (∀ s ∈ w.steps, ∀ i, ∀ hi : i < order.length, order.get ⟨i, hi⟩ = s.name →
        ∀ d ∈ depsOf w s, d ∈ order.take i) := by
  intro fuel
  induction fuel with
  | zero =>
    intro rem acc order hrem hndacc hsub hgreedy htopo hok
    cases rem with
    | nil =>
      rw [topoAux_nil] at hok
      injection hok with hok
      subst hok
      refine ⟨hndacc, ?_, hgreedy, htopo⟩
      intro n
      constructor
      · exact hsub n
      · intro hn
        by_contra hnacc
        rcases List.mem_map.mp hn with ⟨sd, hsd, hname⟩
        have : sd ∈ w.steps.filter (fun x => !acc.contains x.name) := by
          rw [List.mem_filter]
          refine ⟨hsd, ?_⟩
          simp [hname, hnacc]
        rw [← hrem] at this
        simp at this
    | cons r rs =>
      exact Except.noConfusion hok
  | succ fuel ih =>
    intro rem acc order hrem hndacc hsub hgreedy htopo hok
    cases rem with
    | nil =>
      rw [topoAux_nil] at hok
      injection hok with hok
      subst hok
      refine ⟨hndacc, ?_, hgreedy, htopo⟩
      intro n
      constructor
      · exact hsub n
      · intro hn
        by_contra hnacc
        rcases List.mem_map.mp hn with ⟨sd, hsd, hname⟩
        have : sd ∈ w.steps.filter (fun x => !acc.contains x.name) := by
          rw [List.mem_filter]
          refine ⟨hsd, ?_⟩
          simp [hname, hnacc]
        rw [← hrem] at this
        simp at this
    | cons r rs =>
      rw [show topoAux w (fuel + 1) (r :: rs) acc =
          (match (r :: rs).find? (fun s => (depsOf w s).all (fun d => acc.contains d)) with
           | none => .error (.graphCycle ((r :: rs).map (fun s => s.name)))
           | some s => topoAux w fuel ((r :: rs).filter (fun x => x.name ≠ s.name))
               (acc ++ [s.name])) from rfl] at hok
      cases hfind : (r :: rs).find? (fun s => (depsOf w s).all (fun d => acc.contains d)) with
      | none =>
        rw [hfind] at hok
        simp at hok
      | some s =>
        rw [hfind] at hok
        have hsrem : s ∈ r :: rs := List.mem_of_find?_eq_some hfind
        have hready0 := List.find?_some hfind
        have hready : ((depsOf w s).all (fun d => acc.contains d)) = true := hready0
        have hsfilter : s ∈ w.steps.filter (fun x => !acc.contains x.name) :=
          hrem ▸ hsrem
        have hsteps : s ∈ w.steps := (List.mem_filter.mp hsfilter).1
        have hsnacc : s.name ∉ acc := by
          have := (List.mem_filter.mp hsfilter).2
          simpa using this
        have hdeps : ∀ d ∈ depsOf w s, d ∈ acc := by
          intro d hd
          have := List.all_eq_true.mp hready d hd
          simpa using this
      -- invariants for the recursive call
        refine ih ((r :: rs).filter (fun x => x.name ≠ s.name)) (acc ++ [s.name])
          order (rem_filter_step w acc (r :: rs) s.name hrem) ?_ ?_ ?_ ?_ hok
        · simp [List.nodup_append, hndacc, hsnacc]
        · intro n hn
          rcases List.mem_append.mp hn with h | h
          · exact hsub n h
          · rcases List.mem_singleton.mp h with h
            exact h ▸ List.mem_map_of_mem (fun x => x.name) hsteps
        · intro k hk
          rcases Nat.lt_or_ge k acc.length with hlt | hge
          · have htake : (acc ++ [s.name]).take k = acc.take k :=
              List.take_append_of_le_length (Nat.le_of_lt hlt)
            have hget : (acc ++ [s.name]).get ⟨k, hk⟩ = acc.get ⟨k, hlt⟩ := by
              simp [List.getElem_append_left hlt]
            rw [htake, hget]
            exact hgreedy k hlt
          · have hkeq : k = acc.length := by
              simp at hk
              omega
            subst hkeq
            have htake : (acc ++ [s.name]).take acc.length = acc :=
              List.take_left acc [s.name]
            have hget : (acc ++ [s.name]).get ⟨acc.length, hk⟩ = s.name := by
              simp
            rw [htake, hget]
            unfold greedyAt
            rw [← hrem, hfind]
            rfl
        · intro st hst i hi hget d hd
          rcases Nat.lt_or_ge i acc.length with hlt | hge
          · have hgeteq : (acc ++ [s.name]).get ⟨i, hi⟩ = acc.get ⟨i, hlt⟩ := by
              simp [List.getElem_append_left hlt]
            have htake : (acc ++ [s.name]).take i = acc.take i :=
              List.take_append_of_le_length (Nat.le_of_lt hlt)
            rw [htake]
            exact htopo st hst i hlt (hgeteq ▸ hget) d hd
          · have hkeq : i = acc.length := by
              simp at hi
              omega
            subst hkeq
            have hgeteq : (acc ++ [s.name]).get ⟨acc.length, hi⟩ = s.name := by
              simp
            have hstname : st.name = s.name := by
              rw [← hget, hgeteq]
            have hsteq : st = s := nodup_map_name_eq w hnd st s hst hsteps hstname
            have htake2 : (acc ++ [s.name]).take acc.length = acc :=
              List.take_left acc [s.name]
            rw [htake2]
            exact hdeps d (hsteq ▸ hd)

lemma topoAux_error_props (w : Wiring) :
    ∀ fuel rem acc e,
      rem = w.steps.filter (fun x => !acc.contains x.name) →
      rem.length ≤ fuel →
      topoAux w fuel rem acc = .error e →
      ∃ cyc, e = .graphCycle cyc ∧ cyc ≠ [] ∧
        ∀ n ∈ cyc, ∃ s ∈ w.steps, s.name = n ∧ ∃ d ∈ depsOf w s, d ∈ cyc := by
  intro fuel
  induction fuel with
  | zero =>
    intro rem acc e hrem hlen herr
    cases rem with
    | nil => rw [topoAux_nil] at herr; simp at herr
    | cons r rs => simp at hlen
  | succ fuel ih =>
    intro rem acc e hrem hlen herr
    cases rem with
    | nil => rw [topoAux_nil] at herr; simp at herr
    | cons r rs =>
      rw [show topoAux w (fuel + 1) (r :: rs) acc =
          (match (r :: rs).find? (fun s => (depsOf w s).all (fun d => acc.contains d)) with
           | none => .error (.graphCycle ((r :: rs).map (fun s => s.name)))
           | some s => topoAux w fuel ((r :: rs).filter (fun x => x.name ≠ s.name))
               (acc ++ [s.name])) from rfl] at herr
      cases hfind : (r :: rs).find? (fun s => (depsOf w s).all (fun d => acc.contains d)) with
      | none =>
        rw [hfind] at herr
        injection herr with herr
        refine ⟨(r :: rs).map (fun s => s.name), herr.symm, by simp, ?_⟩
        intro n hn
        rcases List.mem_map.mp hn with ⟨x, hx, hxname⟩
        have hxsteps : x ∈ w.steps := (List.mem_filter.mp (hrem ▸ hx)).1
        have hnotready := List.find?_eq_none.mp hfind x hx
        have : ¬((depsOf w x).all (fun d => acc.contains d) = true) := hnotready
        rw [List.all_eq_true] at this
        push_neg at this
        rcases this with ⟨d, hd, hdnacc⟩
        have hdnacc2 : d ∉ acc := by
          intro hc
          exact hdnacc (by simpa using hc)
        rcases depsOf_mem_decl w x d hd with ⟨sd, hsd, hsdname⟩
        refine ⟨x, hxsteps, hxname, d, hd, ?_⟩
        have hsdfilter : sd ∈ w.steps.filter (fun y => !acc.contains y.name) := by
          rw [List.mem_filter]
          exact ⟨hsd, by simp [hsdname, hdnacc2]⟩
        rw [← hrem] at hsdfilter
        exact hsdname ▸ List.mem_map_of_mem (fun y => y.name) hsdfilter
      | some s =>
        rw [hfind] at herr
        have hsrem : s ∈ r :: rs := List.mem_of_find?_eq_some hfind
        have hlen2 : ((r :: rs).filter (fun x => x.name ≠ s.name)).length < (r :: rs).length := by
          refine List.length_filter_lt_length_iff_exists.mpr ⟨s, hsrem, by simp⟩
        exact ih ((r :: rs).filter (fun x => x.name ≠ s.name)) (acc ++ [s.name]) e
          (rem_filter_step w acc (r :: rs) s.name hrem)
          (by omega) herr

lemma initial_rem (w : Wiring) :
    w.steps = w.steps.filter (fun x => !([] : List String).contains x.name) := by
  simp

lemma indexOf_lt_of_mem_take (l : List String) (i : Nat) (a : String)
    (h : a ∈ l.take i) : l.indexOf a < i := by
  induction l generalizing i with
  | nil => simp at h
  | cons x xs ih =>
    cases i with
    | zero => simp at h
    | succ j =>
      rw [List.take_succ_cons] at h
      rcases List.mem_cons.mp h with h | h
      · subst h
        simp [List.indexOf_cons]
      · by_cases hax : x = a
        · subst hax
          simp [List.indexOf_cons]
        · have := ih j h
          have hbeq : (x == a) = false := beq_eq_false_iff_ne.mpr hax
          rw [List.indexOf_cons, hbeq, cond_false]
          omega

lemma topoSort_ok_acyclic (w : Wiring) (hnd : (stepNames w).Nodup)
    (order : List String) (hok : topoSort w = .ok order) : Acyclic w := by
  have hprops := topoAux_ok_props w hnd w.steps.length w.steps [] order
    (initial_rem w) List.nodup_nil (by simp) (by simp) (by simp) hok
  rcases hprops with ⟨hndo, hmem, _, htopo⟩
  refine ⟨fun n => order.indexOf n, ?_⟩
  intro s hs d hd
  have hsname : s.name ∈ order :=
    (hmem s.name).mpr (List.mem_map_of_mem (fun x => x.name) hs)
  have hilt : order.indexOf s.name < order.length := List.indexOf_lt_length.mpr hsname
  have hget : order.get ⟨order.indexOf s.name, hilt⟩ = s.name := List.indexOf_get hilt
  have hdtake := htopo s hs (order.indexOf s.name) hilt hget d hd
  exact indexOf_lt_of_mem_take order (order.indexOf s.name) d hdtake

lemma cyclic_not_acyclic (w : Wiring) (hcyc : Cyclic w) (hacyc : Acyclic w) :
    False := by
  rcases hacyc with ⟨rank, hrank⟩
  rcases hcyc with ⟨c, hcne, hc⟩
  have key : ∀ k n, n ∈ c → rank n ≤ k → False := by
    intro k
    induction k with
    | zero =>
      intro n hn hle
      rcases hc n hn with ⟨s, hs, hsname, d, hd, _⟩
      have := hrank s hs d hd
      rw [hsname] at this
      omega
    | succ k ih =>
      intro n hn hle
      rcases hc n hn with ⟨s, hs, hsname, d, hd, hdc⟩
      have := hrank s hs d hd
      rw [hsname] at this
      exact ih d hdc (by omega)
  rcases List.exists_mem_of_ne_nil c hcne with ⟨n, hn⟩
  exact key (rank n) n hn (Nat.le_refl _)

lemma validateStepInputs_ok (w : Wiring) (sname : String) :
    ∀ inputs, (∀ i ∈ inputs, resolveInput w sname i = .ok ()) →
      validateStepInputs w sname inputs = .ok () := by
  intro inputs
  induction inputs with
  | nil => intro _; rfl
  | cons i rest ih =>
    intro h
    unfold validateStepInputs
    rw [h i (by simp)]
    exact ih (fun j hj => h j (by simp [hj]))

lemma validateInputs_ok (w : Wiring) :
    ∀ l, (∀ s ∈ l, ∀ i ∈ s.inputs, resolveInput w s.name i = .ok ()) →
      validateInputs w l = .ok () := by
  intro l
  induction l with
  | nil => intro _; rfl
  | cons s rest ih =>
    intro h
    unfold validateInputs
    rw [validateStepInputs_ok w s.name s.inputs (h s (by simp))]
    exact ih (fun t ht i hi => h t (by simp [ht]) i hi)

lemma topoAux_acyclic_ok (w : Wiring) (hacyc : Acyclic w) :
    ∀ fuel rem acc,
      rem = w.steps.filter (fun x => !acc.contains x.name) →
      rem.length ≤ fuel →
      ∃ order, topoAux w fuel rem acc = .ok order := by
  rcases hacyc with ⟨rank, hrank⟩
  intro fuel
  induction fuel with
  | zero =>
    intro rem acc hrem hlen
    cases rem with
    | nil => exact ⟨acc, topoAux_nil w 0 acc⟩
    | cons r rs => simp at hlen
  | succ fuel ih =>
    intro rem acc hrem hlen
    cases rem with
    | nil => exact ⟨acc, topoAux_nil w _ acc⟩
    | cons r rs =>
      have hmin : ∃ m, m ∈ List.argmin (fun x => rank x.name) (r :: rs) := by
        cases hma : List.argmin (fun x => rank x.name) (r :: rs) with
        | none =>
          rw [List.argmin_eq_none] at hma
          simp at hma
        | some m => exact ⟨m, rfl⟩
      rcases hmin with ⟨m, hm⟩
      have hmmem : m ∈ r :: rs := List.argmin_mem hm
      have hmsteps : m ∈ w.steps := (List.mem_filter.mp (hrem ▸ hmmem)).1
      have hmready : ((depsOf w m).all (fun d => acc.contains d)) = true := by
        rw [List.all_eq_true]
        intro d hd
        rcases depsOf_mem_decl w m d hd with ⟨sd, hsd, hsdname⟩
        by_cases hdacc : d ∈ acc
        · simpa using hdacc
        · exfalso
          have hsdfilter : sd ∈ w.steps.filter (fun y => !acc.contains y.name) := by
            rw [List.mem_filter]
            exact ⟨hsd, by simp [hsdname, hdacc]⟩
          rw [← hrem] at hsdfilter
          have hle := List.le_of_mem_argmin hsdfilter hm
          have hlt := hrank m hmsteps d hd
          rw [hsdname] at hle
          omega
      have hfindsome : ((r :: rs).find?
          (fun s => (depsOf w s).all (fun d => acc.contains d))).isSome = true := by
        rw [List.find?_isSome]
        exact ⟨m, hmmem, hmready⟩
      rcases Option.isSome_iff_exists.mp hfindsome with ⟨s, hfind⟩
      have hsrem : s ∈ r :: rs := List.mem_of_find?_eq_some hfind
      have hlen2 : ((r :: rs).filter (fun x => x.name ≠ s.name)).length < (r :: rs).length :=
        List.length_filter_lt_length_iff_exists.mpr ⟨s, hsrem, by simp⟩
      rcases ih ((r :: rs).filter (fun x => x.name ≠ s.name)) (acc ++ [s.name])
        (rem_filter_step w acc (r :: rs) s.name hrem) (by omega) with ⟨order, hord⟩
      refine ⟨order, ?_⟩
      rw [show topoAux w (fuel + 1) (r :: rs) acc =
          (match (r :: rs).find? (fun s => (depsOf w s).all (fun d => acc.contains d)) with
           | none => .error (.graphCycle ((r :: rs).map (fun s => s.name)))
           | some s => topoAux w fuel ((r :: rs).filter (fun x => x.name ≠ s.name))
               (acc ++ [s.name])) from rfl]
      rw [hfind]
      exact hord

/-- C1: for every acyclic, fully-bound, type-compatible wiring the DAG
Builder succeeds and returns an order containing each step exactly once
in which every consumer appears after all of its producers; at every
position the placed step is the declaration-order-first ready step, so
ties among independent steps are broken by declaration order and the
order is a deterministic function of the input. -/
theorem dag_builder_topological_order (w : Wiring)
    (hnd : (stepNames w).Nodup)
    (hacyc : Acyclic w)
    (hval : ∀ s ∈ w.steps, ∀ i ∈ s.inputs, resolveInput w s.name i = .ok ()) :
    ∃ order, buildDag w = .ok order ∧ order.Nodup ∧
      (∀ n, n ∈ order ↔ n ∈ stepNames w) ∧
      (∀ s ∈ w.steps, ∀ d ∈ depsOf w s, order.indexOf d < order.indexOf s.name) ∧
      (∀ k, ∀ hk : k < order.length, greedyAt w (order.take k) = some (order.get ⟨k, hk⟩)) := by
  rcases topoAux_acyclic_ok w hacyc w.steps.length w.steps [] (initial_rem w)
    (Nat.le_refl _) with ⟨order, hok⟩
  have hsort : topoSort w = .ok order := hok
  have hprops := topoAux_ok_props w hnd w.steps.length w.steps [] order
    (initial_rem w) List.nodup_nil (by simp) (by simp) (by simp) hok
  rcases hprops with ⟨hndo, hmem, hgreedy, htopo⟩
  refine ⟨order, ?_, hndo, hmem, ?_, hgreedy⟩
  · unfold buildDag
    rw [hsort, validateInputs_ok w w.steps hval]
  · intro s hs d hd
    have hsname : s.name ∈ order :=
      (hmem s.name).mpr (List.mem_map_of_mem (fun x => x.name) hs)
    have hilt : order.indexOf s.name < order.length := List.indexOf_lt_length.mpr hsname
    have hget : order.get ⟨order.indexOf s.name, hilt⟩ = s.name := List.indexOf_get hilt
    have hdtake := htopo s hs (order.indexOf s.name) hilt hget d hd
    exact indexOf_lt_of_mem_take order (order.indexOf s.name) d hdtake

/-- C2: for every cyclic wiring, pipeline construction fails with
`GraphCycleError` naming a nonempty set of steps each depending on
another member of the set, and construct-and-run aborts before any
execution: no run state is produced at all. -/
theorem dag_builder_cycle_error (w : Wiring)
    (hnd : (stepNames w).Nodup) (hcyc : Cyclic w)
    (pipeline runName : String) (behavior : String → Bool) (ctx : ExecContext)
    (meta0 : List ExecRecord) (counter0 : Nat) :
    ∃ cyc, buildDag w = .error (.graphCycle cyc) ∧ cyc ≠ [] ∧
      (∀ n ∈ cyc, ∃ s ∈ w.steps, s.name = n ∧ ∃ d ∈ depsOf w s, d ∈ cyc) ∧
      constructAndRun w pipeline runName behavior ctx meta0 counter0 =
        .error (.graphCycle cyc) := by
  have herr : ∃ e, topoSort w = .error e := by
    cases hts : topoSort w with
    | ok order =>
      exfalso
      exact cyclic_not_acyclic w hcyc (topoSort_ok_acyclic w hnd order hts)
    | error e => exact ⟨e, rfl⟩
  rcases herr with ⟨e, he⟩
  rcases topoAux_error_props w w.steps.length w.steps [] e (initial_rem w)
    (Nat.le_refl _) he with ⟨cyc, hecyc, hcne, hprop⟩
  subst hecyc
  refine ⟨cyc, ?_, hcne, hprop, ?_⟩
  · unfold buildDag
    rw [he]
  · unfold constructAndRun buildDag
    rw [he]

/-- Witness for C1 on the quickstart wiring. -/
theorem dag_builder_topological_order_witness :
    ∃ order, buildDag sampleWiring = .ok order ∧ order.Nodup ∧
      (∀ n, n ∈ order ↔ n ∈ stepNames sampleWiring) ∧
      (∀ s ∈ sampleWiring.steps, ∀ d ∈ depsOf sampleWiring s,
        order.indexOf d < order.indexOf s.name) ∧
      (∀ k, ∀ hk : k < order.length,
        greedyAt sampleWiring (order.take k) = some (order.get ⟨k, hk⟩)) :=
  dag_builder_topological_order sampleWiring (by decide)
    ⟨fun n => if n = "importer" then 0 else if n = "trainer" then 1 else 2, by decide⟩
    (by decide)

/-- Witness for C2 on the two-step cyclic wiring. -/
theorem dag_builder_cycle_error_witness :
    ∃ cyc, buildDag cyclicWiring = .error (.graphCycle cyc) ∧ cyc ≠ [] ∧
      (∀ n ∈ cyc, ∃ s ∈ cyclicWiring.steps, s.name = n ∧
        ∃ d ∈ depsOf cyclicWiring s, d ∈ cyc) ∧
      constructAndRun cyclicWiring "p" "r1" (fun _ => true)
          { wallClock := 0, processId := 0, entropy := 0 } [] 0 =
        .error (.graphCycle cyc) :=
  dag_builder_cycle_error cyclicWiring (by decide)
    ⟨["a", "b"], by decide, by decide⟩
    "p" "r1" (fun _ => true) { wallClock := 0, processId := 0, entropy := 0 } [] 0

lemma setStat_same (f : String → StepStatus) (n : String) (v : StepStatus) :
    setStat f n v n = v := by
  simp [setStat]

lemma setStat_other (f : String → StepStatus) (n m : String) (v : StepStatus)
    (h : m ≠ n) : setStat f n v m = f m := by
  simp [setStat, h]

lemma countStarted_append (tr1 tr2 : List Event) (n : String) :
    countStarted (tr1 ++ tr2) n = countStarted tr1 n + countStarted tr2 n :=
  List.countP_append _ _ _

lemma countStarted_one_started (n m : String) :
    countStarted [.started m] n = if m = n then 1 else 0 := by
  by_cases h : m = n <;> simp [countStarted, List.countP_cons, h]

lemma countStarted_one_committed (n m : String) (t : StepStatus) :
    countStarted [.committed m t] n = 0 := by
  simp [countStarted, List.countP_cons]

lemma terminal_ne_pending (t : StepStatus) (h : t.isTerminal = true) :
    t ≠ .pending := by
  cases t <;> simp_all [StepStatus.isTerminal]

lemma orch_invariant (dag : List DagNode)
    (hdag : (dag.map (fun nd => nd.name)).Nodup)
    (c : Orch) (h : Reachable dag c) :
    (∀ n, (c.state n = .pending → countStarted c.trace n = 0) ∧
          (c.state n ≠ .pending → countStarted c.trace n = 1)) ∧
    (∀ n, (c.state n).isTerminal = true →
      ∃ t, t.isTerminal = true ∧ Event.committed n t ∈ c.trace) ∧
    (∀ i, ∀ hi : i < c.trace.length, ∀ nd ∈ dag,
      c.trace.get ⟨i, hi⟩ = .started nd.name →
      ∀ d ∈ nd.deps, ∃ j, ∃ hj : j < c.trace.length, j < i ∧
        ∃ t, t.isTerminal = true ∧ c.trace.get ⟨j, hj⟩ = .committed d t) := by
  induction h with
  | refl =>
    refine ⟨?_, ?_, ?_⟩
    · intro n
      exact ⟨fun _ => rfl, fun hne => absurd rfl hne⟩
    · intro n hterm
      simp [orchInit, StepStatus.isTerminal] at hterm
    · intro i hi
      simp [orchInit] at hi
  | tail hsteps hstep ih =>
    rcases ih with ⟨ihcount, ihterm, ihwf⟩
    cases hstep with
    | start nd hmem hpend hups =>
      rename_i b
      refine ⟨?_, ?_, ?_⟩
      · intro n
        dsimp only
        by_cases hn : n = nd.name
        · subst hn
          rw [setStat_same]
          constructor
          · intro hcontra
            exact StepStatus.noConfusion hcontra
          · intro _
            have h0 : countStarted b.trace nd.name = 0 := (ihcount nd.name).1 hpend
            simp [countStarted_append, countStarted_one_started, h0]
        · rw [setStat_other b.state nd.name n .running hn]
          have hne : nd.name ≠ n := fun hc => hn hc.symm
          constructor
          · intro hp
            have h0 : countStarted b.trace n = 0 := (ihcount n).1 hp
            simp [countStarted_append, countStarted_one_started, h0, hne]
          · intro hp
            have h1 : countStarted b.trace n = 1 := (ihcount n).2 hp
            simp [countStarted_append, countStarted_one_started, h1, hne]
      · intro n hterm
        dsimp only at hterm ⊢
        by_cases hn : n = nd.name
        · subst hn
          rw [setStat_same] at hterm
          simp [StepStatus.isTerminal] at hterm
        · rw [setStat_other b.state nd.name n .running hn] at hterm
          rcases ihterm n hterm with ⟨t, htt, htmem⟩
          exact ⟨t, htt, List.mem_append_left _ htmem⟩
      · intro i hi nd0 hnd0 hget d hd
        dsimp only at hi hget ⊢
        rcases Nat.lt_or_ge i b.trace.length with hlt | hge
        · have hgeteq : (b.trace ++ [Event.started nd.name]).get ⟨i, hi⟩ =
              b.trace.get ⟨i, hlt⟩ := by
            simp [List.getElem_append_left hlt]
          rw [hgeteq] at hget
          rcases ihwf i hlt nd0 hnd0 hget d hd with ⟨j, hj, hji, t, htt, hjget⟩
          have hj2 : j < (b.trace ++ [Event.started nd.name]).length := by
            simp
            omega
          refine ⟨j, hj2, hji, t, htt, ?_⟩
          have hje : (b.trace ++ [Event.started nd.name]).get ⟨j, hj2⟩ =
              b.trace.get ⟨j, hj⟩ := by
            simp [List.getElem_append_left hj]
          rw [hje, hjget]
        · have hieq : i = b.trace.length := by
            simp at hi
            omega
          subst hieq
          have hgeteq : (b.trace ++ [Event.started nd.name]).get ⟨b.trace.length, hi⟩ =
              .started nd.name := by
            simp
          rw [hgeteq] at hget
          injection hget with hname
          have hndeq : nd0 = nd :=
            List.inj_on_of_nodup_map hdag hnd0 hmem hname.symm
          subst hndeq
          have hterm := hups d hd
          rcases ihterm d hterm with ⟨t, htt, htmem⟩
          rcases List.mem_iff_get.mp htmem with ⟨⟨j, hj⟩, hjget⟩
          have hj2 : j < (b.trace ++ [Event.started nd0.name]).length := by
            simp
            omega
          refine ⟨j, hj2, hj, t, htt, ?_⟩
          have hje : (b.trace ++ [Event.started nd0.name]).get ⟨j, hj2⟩ =
              b.trace.get ⟨j, hj⟩ := by
            simp [List.getElem_append_left hj]
          rw [hje, hjget]
    | finish nd hmem t hrun hterm =>
      rename_i b
      refine ⟨?_, ?_, ?_⟩
      · intro n
        dsimp only
        by_cases hn : n = nd.name
        · subst hn
          rw [setStat_same]
          constructor
          · intro hcontra
            exact absurd hcontra (terminal_ne_pending t hterm)
          · intro _
            have h1 : countStarted b.trace nd.name = 1 := by
              refine (ihcount nd.name).2 ?_
              rw [hrun]
              simp
            simp [countStarted_append, countStarted_one_committed, h1]
        · rw [setStat_other b.state nd.name n t hn]
          constructor
          · intro hp
            have h0 : countStarted b.trace n = 0 := (ihcount n).1 hp
            simp [countStarted_append, countStarted_one_committed, h0]
          · intro hp
            have h1 : countStarted b.trace n = 1 := (ihcount n).2 hp
            simp [countStarted_append, countStarted_one_committed, h1]
      · intro n hterm2
        dsimp only at hterm2 ⊢
        by_cases hn : n = nd.name
        · subst hn
          rw [setStat_same] at hterm2
          exact ⟨t, hterm2, by simp⟩
        · rw [setStat_other b.state nd.name n t hn] at hterm2
          rcases ihterm n hterm2 with ⟨u, huu, humem⟩
          exact ⟨u, huu, List.mem_append_left _ humem⟩
      · intro i hi nd0 hnd0 hget d hd
        dsimp only at hi hget ⊢
        rcases Nat.lt_or_ge i b.trace.length with hlt | hge
        · have hgeteq : (b.trace ++ [Event.committed nd.name t]).get ⟨i, hi⟩ =
              b.trace.get ⟨i, hlt⟩ := by
            simp [List.getElem_append_left hlt]
          rw [hgeteq] at hget
          rcases ihwf i hlt nd0 hnd0 hget d hd with ⟨j, hj, hji, u, huu, hjget⟩
          have hj2 : j < (b.trace ++ [Event.committed nd.name t]).length := by
            simp
            omega
          refine ⟨j, hj2, hji, u, huu, ?_⟩
          have hje : (b.trace ++ [Event.committed nd.name t]).get ⟨j, hj2⟩ =
              b.trace.get ⟨j, hj⟩ := by
            simp [List.getElem_append_left hj]
          rw [hje, hjget]
        · have hieq : i = b.trace.length := by
            simp at hi
            omega
          subst hieq
          have hgeteq : (b.trace ++ [Event.committed nd.name t]).get
              ⟨b.trace.length, hi⟩ = .committed nd.name t := by
            simp
          rw [hgeteq] at hget
          exact Event.noConfusion hget

/-- C7: in every reachable orchestration (the relation covers both the
sequential and the distributed variant), each step starts at most once,
and before any step starts every one of its upstream steps has a
terminal status durably committed earlier in the trace; mutually
independent branches below a common upstream may start in either order
(no ordering is guaranteed between them). -/
theorem orchestrator_once_upstream_terminal (dag : List DagNode)
    (hdag : (dag.map (fun nd => nd.name)).Nodup)
    (c : Orch) (h : Reachable dag c) :
    (∀ n, countStarted c.trace n ≤ 1) ∧
    (∀ i, ∀ hi : i < c.trace.length, ∀ nd ∈ dag,
      c.trace.get ⟨i, hi⟩ = .started nd.name →
      ∀ d ∈ nd.deps, ∃ j, ∃ hj : j < c.trace.length, j < i ∧
        ∃ t, t.isTerminal = true ∧ c.trace.get ⟨j, hj⟩ = .committed d t) ∧
    (∀ nd0 nd1 nd2, nd0 ∈ dag → nd1 ∈ dag → nd2 ∈ dag →
      nd0.deps = [] → nd1.deps = [nd0.name] → nd2.deps = [nd0.name] →
      nd1.name ≠ nd0.name → nd2.name ≠ nd0.name → nd1.name ≠ nd2.name →
      ∃ c1 c2, Reachable dag c1 ∧ Reachable dag c2 ∧
        c1.trace = [.started nd0.name, .committed nd0.name .completed,
          .started nd1.name, .started nd2.name] ∧
        c2.trace = [.started nd0.name, .committed nd0.name .completed,
          .started nd2.name, .started nd1.name]) := by
  rcases orch_invariant dag hdag c h with ⟨hcount, _, hwf⟩
  refine ⟨?_, hwf, ?_⟩
  · intro n
    by_cases hp : c.state n = .pending
    · rw [(hcount n).1 hp]
      omega
    · rw [(hcount n).2 hp]
  · intro nd0 nd1 nd2 h0 h1 h2 hd0 hd1 hd2 hn1 hn2 hn12
    have mk : ∀ ndA ndB : DagNode, ndA ∈ dag → ndB ∈ dag →
        ndA.deps = [nd0.name] → ndB.deps = [nd0.name] →
        ndA.name ≠ nd0.name → ndB.name ≠ nd0.name → ndA.name ≠ ndB.name →
        ∃ cc, Reachable dag cc ∧
          cc.trace = [.started nd0.name, .committed nd0.name .completed,
            .started ndA.name, .started ndB.name] := by
      intro ndA ndB hA hB hdA hdB hAn hBn hAB
      have s1 : OrchStep dag orchInit
          { state := setStat orchInit.state nd0.name .running,
            trace := orchInit.trace ++ [.started nd0.name] } :=
        OrchStep.start orchInit nd0 h0 rfl (by rw [hd0]; intro d hd; simp at hd)
      have s2 : OrchStep dag
          { state := setStat orchInit.state nd0.name .running,
            trace := orchInit.trace ++ [.started nd0.name] }
          { state := setStat (setStat orchInit.state nd0.name .running)
              nd0.name .completed,
            trace := (orchInit.trace ++ [.started nd0.name]) ++
              [.committed nd0.name .completed] } :=
        OrchStep.finish _ nd0 h0 .completed (by simp [setStat_same]) rfl
      have s3 : OrchStep dag
          { state := setStat (setStat orchInit.state nd0.name .running)
              nd0.name .completed,
            trace := (orchInit.trace ++ [.started nd0.name]) ++
              [.committed nd0.name .completed] }
          { state := setStat (setStat (setStat orchInit.state nd0.name .running)
              nd0.name .completed) ndA.name .running,
            trace := ((orchInit.trace ++ [.started nd0.name]) ++
              [.committed nd0.name .completed]) ++ [.started ndA.name] } := by
        refine OrchStep.start _ ndA hA ?_ ?_
        · show setStat (setStat orchInit.state nd0.name .running)
            nd0.name .completed ndA.name = .pending
          rw [setStat_other _ _ _ _ hAn, setStat_other _ _ _ _ hAn]
          rfl
        · intro d hd
          rw [hdA] at hd
          rcases List.mem_singleton.mp hd with rfl
          show (setStat (setStat orchInit.state nd0.name .running)
            nd0.name .completed nd0.name).isTerminal = true
          rw [setStat_same]
          rfl
      have s4 : OrchStep dag
          { state := setStat (setStat (setStat orchInit.state nd0.name .running)
              nd0.name .completed) ndA.name .running,
            trace := ((orchInit.trace ++ [.started nd0.name]) ++
              [.committed nd0.name .completed]) ++ [.started ndA.name] }
          { state := setStat (setStat (setStat (setStat orchInit.state
              nd0.name .running) nd0.name .completed) ndA.name .running)
              ndB.name .running,
            trace := (((orchInit.trace ++ [.started nd0.name]) ++
              [.committed nd0.name .completed]) ++ [.started ndA.name]) ++
              [.started ndB.name] } := by
        refine OrchStep.start _ ndB hB ?_ ?_
        · show setStat (setStat (setStat orchInit.state nd0.name .running)
            nd0.name .completed) ndA.name .running ndB.name = .pending
          rw [setStat_other _ _ _ _ (fun hc => hAB hc.symm),
            setStat_other _ _ _ _ hBn, setStat_other _ _ _ _ hBn]
          rfl
        · intro d hd
          rw [hdB] at hd
          rcases List.mem_singleton.mp hd with rfl
          show (setStat (setStat (setStat orchInit.state nd0.name .running)
            nd0.name .completed) ndA.name .running nd0.name).isTerminal = true
          rw [setStat_other _ _ _ _ (fun hc => hAn hc.symm), setStat_same]
          rfl
      refine ⟨_, Relation.ReflTransGen.tail (Relation.ReflTransGen.tail
        (Relation.ReflTransGen.tail (Relation.ReflTransGen.tail
          Relation.ReflTransGen.refl s1) s2) s3) s4, ?_⟩
      simp [orchInit]
    rcases mk nd1 nd2 h1 h2 hd1 hd2 hn1 hn2 hn12 with ⟨c1, hc1, ht1⟩
    rcases mk nd2 nd1 h2 h1 hd2 hd1 hn2 hn1 (fun hc => hn12 hc.symm)
      with ⟨c2, hc2, ht2⟩
    exact ⟨c1, c2, hc1, hc2, ht1, ht2⟩

/-- Witness for C7: the initial configuration is reachable for the
fork DAG of the spec's scenario. -/
theorem orchestrator_once_upstream_terminal_witness :
    countStarted orchInit.trace "B" ≤ 1 :=
  (orchestrator_once_upstream_terminal
    [{ name := "A", deps := [] }, { name := "B", deps := ["A"] },
      { name := "D", deps := ["A"] }]
    (by decide) orchInit Relation.ReflTransGen.refl).1 "B"

lemma execStep_props (w : Wiring) (p rn : String) (b : String → Bool)
    (ctx : ExecContext) (s : ExecState) (n : String) (s1 : ExecState) (cont : Bool)
    (h : execStep w p rn b ctx s n = (s1, cont)) :
    (∃ recs : List ExecRecord, s1.meta = s.meta ++ recs ∧
      (∀ r ∈ recs, r.pipeline = p ∧ r.runName = rn ∧ r.stepName = n ∧
        (cont = true → (r.status = .cached ∨ r.status = .completed)) ∧
        (cont = false → r.status = .failed)) ∧
      (cont = false → recs ≠ [])) ∧
    (∃ os : List (String × List Nat), s1.outMap = s.outMap ++ os ∧
      ∀ e ∈ os, e.1 = n) ∧
    (∃ iv : List String, s1.invoked = s.invoked ++ iv ∧ iv.length ≤ 1 ∧
      ∀ m ∈ iv, m = n) := by
  unfold execStep at h
  cases hdecl : declOf w n with
  | none =>
    rw [hdecl] at h
    injection h with h1 h2
    subst h1
    subst h2
    exact ⟨⟨[], by simp, by simp, by simp⟩, ⟨[], by simp, by simp⟩,
      ⟨[], by simp, by simp, by simp⟩⟩
  | some st =>
    rw [hdecl] at h
    simp only at h
    cases hhit : (if st.enableCache then
        findCacheHit s.meta p (computeCacheKey ctx st.codeId st.config
          (inputRefsOf w s.outMap st)) else none) with
    | some r =>
      rw [hhit] at h
      injection h with h1 h2
      subst h2
      refine ⟨⟨[⟨p, rn, n, .cached,
          computeCacheKey ctx st.codeId st.config (inputRefsOf w s.outMap st),
          r.outputRefs⟩], by rw [← h1], ?_, by simp⟩,
        ⟨[(n, r.outputRefs)], by rw [← h1], by simp⟩,
        ⟨[], by rw [← h1]; simp, by simp, by simp⟩⟩
      intro q hq
      rcases List.mem_singleton.mp hq with rfl
      exact ⟨rfl, rfl, rfl, fun _ => Or.inl rfl, fun hc => Bool.noConfusion hc⟩
    | none =>
      rw [hhit] at h
      cases hb : b n with
      | true =>
        rw [hb] at h
        simp only [if_true] at h
        injection h with h1 h2
        subst h2
        refine ⟨⟨[⟨p, rn, n, .completed,
            computeCacheKey ctx st.codeId st.config (inputRefsOf w s.outMap st),
            (List.range st.outputs.length).map (fun j => s.counter + j)⟩],
            by rw [← h1], ?_, by simp⟩,
          ⟨[(n, (List.range st.outputs.length).map (fun j => s.counter + j))],
            by rw [← h1], by simp⟩,
          ⟨[n], by rw [← h1], by simp, by simp⟩⟩
        intro q hq
        rcases List.mem_singleton.mp hq with rfl
        exact ⟨rfl, rfl, rfl, fun _ => Or.inr rfl, fun hc => Bool.noConfusion hc⟩
      | false =>
        rw [hb] at h
        simp only [Bool.false_eq_true, if_false] at h
        injection h with h1 h2
        subst h2
        refine ⟨⟨[⟨p, rn, n, .failed,
            computeCacheKey ctx st.codeId st.config (inputRefsOf w s.outMap st),
            []⟩], by rw [← h1], ?_, by simp⟩,
          ⟨[], by rw [← h1]; simp, by simp⟩,
          ⟨[n], by rw [← h1], by simp, by simp⟩⟩
        intro q hq
        rcases List.mem_singleton.mp hq with rfl
        exact ⟨rfl, rfl, rfl, fun hc => Bool.noConfusion hc, fun _ => rfl⟩

lemma markNotRun_meta (p rn : String) (ns : List String) (s : ExecState) :
    (markNotRun p rn ns s).meta = s.meta ++ ns.map (fun n =>
      (⟨p, rn, n, .notRun, ⟨0, [], []⟩, []⟩ : ExecRecord)) := rfl

lemma markNotRun_invoked (p rn : String) (ns : List String) (s : ExecState) :
    (markNotRun p rn ns s).invoked = s.invoked := rfl

lemma recordOf_append (meta1 meta2 : List ExecRecord) (rn n : String) :
    recordOf (meta1 ++ meta2) rn n =
      (recordOf meta1 rn n).or (recordOf meta2 rn n) :=
  List.find?_append

lemma recordOf_eq_none (meta : List ExecRecord) (rn n : String)
    (h : ∀ r ∈ meta, r.runName = rn → r.stepName ≠ n) :
    recordOf meta rn n = none := by
  refine List.find?_eq_none.mpr ?_
  intro r hr
  simp only [decide_eq_true_eq, not_and]
  intro h1 h2
  exact h r hr h1 h2

lemma find?_notRun_map (p rn : String) (ns : List String) (d : String)
    (hd : d ∈ ns) :
    (ns.map (fun n => (⟨p, rn, n, .notRun, ⟨0, [], []⟩, []⟩ : ExecRecord))).find?
      (fun r => r.runName = rn ∧ r.stepName = d) =
      some ⟨p, rn, d, .notRun, ⟨0, [], []⟩, []⟩ := by
  induction ns with
  | nil => simp at hd
  | cons m ms ih =>
    by_cases hm : m = d
    · subst hm
      simp [List.find?_cons]
    · rcases List.mem_cons.mp hd with h | h
      · exact absurd h.symm hm
      · rw [List.map_cons, List.find?_cons]
        have hpred : (decide ((⟨p, rn, m, .notRun, ⟨0, [], []⟩, []⟩ :
            ExecRecord).runName = rn ∧ (⟨p, rn, m, .notRun, ⟨0, [], []⟩, []⟩ :
            ExecRecord).stepName = d)) = false := by
          simp [hm]
        rw [hpred]
        exact ih h

lemma execOrder_characterize (w : Wiring) (p rn : String) (b : String → Bool)
    (ctx : ExecContext) :
    ∀ rest s fs okr,
      execOrder w p rn b ctx rest s = (fs, okr) →
      rest.Nodup →
      (∀ m ∈ s.invoked, m ∉ rest) →
      (∀ m, s.invoked.count m ≤ 1) →
      (∀ r ∈ s.meta, r.runName = rn → r.stepName ∉ rest) →
      (∀ r ∈ s.meta, r.runName = rn → r.status = .completed ∨ r.status = .cached) →
      ((∀ m, fs.invoked.count m ≤ 1) ∧
       (okr = true → ∀ r ∈ fs.meta, r.runName = rn →
         r.status = .completed ∨ r.status = .cached) ∧
       (okr = false → ∃ l1 cname l2, rest = l1 ++ cname :: l2 ∧
         (∃ rec ∈ fs.meta, rec.runName = rn ∧ rec.stepName = cname ∧
           rec.status = .failed) ∧
         (∀ r ∈ fs.meta, r.runName = rn → r.status = .failed → r.stepName = cname) ∧
         (∀ d ∈ l2, (∃ rec, recordOf fs.meta rn d = some rec ∧
           rec.status = .notRun) ∧ d ∉ fs.invoked))) := by
  intro rest
  induction rest with
  | nil =>
    intro s fs okr h _ _ hcount hmeta hstatus
    unfold execOrder at h
    injection h with h1 h2
    subst h1
    subst h2
    refine ⟨hcount, fun _ => hstatus, fun hc => Bool.noConfusion hc⟩
  | cons n rest ih =>
    intro s fs okr h hnodup hinv hcount hmeta hstatus
    have hn_rest : n ∉ rest := (List.nodup_cons.mp hnodup).1
    have hnodup2 : rest.Nodup := (List.nodup_cons.mp hnodup).2
    have hninv : n ∉ s.invoked := fun hc => hinv n hc (by simp)
    rcases hse : execStep w p rn b ctx s n with ⟨s1, cont⟩
    rcases execStep_props w p rn b ctx s n s1 cont hse with
      ⟨⟨recs, hmeta1, hrecs, hrecsne⟩, ⟨os, houtmap, hos⟩, ⟨iv, hinvoked, hivlen, hiv⟩⟩
    have hcount1 : ∀ m, s1.invoked.count m ≤ 1 := by
      intro m
      rw [hinvoked, List.count_append]
      by_cases hm : m = n
      · subst hm
        have h0 : s.invoked.count m = 0 := List.count_eq_zero.mpr hninv
        have hle : iv.count m ≤ iv.length := List.count_le_length _ _
        omega
      · have h0 : iv.count m = 0 := by
          refine List.count_eq_zero.mpr ?_
          intro hc
          exact hm (hiv m hc)
        have := hcount m
        omega
    have hinvmem1 : ∀ m ∈ s1.invoked, m ∉ rest := by
      intro m hm
      rw [hinvoked] at hm
      rcases List.mem_append.mp hm with hm | hm
      · intro hc
        exact hinv m hm (by simp [hc])
      · rw [hiv m hm]
        exact hn_rest
    have hmeta2 : ∀ r ∈ s1.meta, r.runName = rn → r.stepName ∉ rest := by
      intro r hr hrn
      rw [hmeta1] at hr
      rcases List.mem_append.mp hr with hr | hr
      · intro hc
        exact hmeta r hr hrn (by simp [hc])
      · rw [(hrecs r hr).2.2.1]
        exact hn_rest
    unfold execOrder at h
    rw [hse] at h
    cases cont with
    | true =>
      simp only at h
      have hstatus1 : ∀ r ∈ s1.meta, r.runName = rn →
          r.status = .completed ∨ r.status = .cached := by
        intro r hr hrn
        rw [hmeta1] at hr
        rcases List.mem_append.mp hr with hr | hr
        · exact hstatus r hr hrn
        · rcases (hrecs r hr).2.2.2.1 rfl with hcc | hcc
          · exact Or.inr hcc
          · exact Or.inl hcc
      rcases ih s1 fs okr h hnodup2 hinvmem1 hcount1 hmeta2 hstatus1 with
        ⟨ca, cb, cc⟩
      refine ⟨ca, cb, ?_⟩
      intro hko
      rcases cc hko with ⟨l1, cname, l2, hsplit, hex, huniq, hrest⟩
      exact ⟨n :: l1, cname, l2, by rw [hsplit]; rfl, hex, huniq, hrest⟩
    | false =>
      simp only at h
      injection h with h1 h2
      subst h2
      have hfsinv : fs.invoked = s1.invoked := by
        rw [← h1]
        rfl
      have hfsmeta : fs.meta = s1.meta ++ rest.map (fun m =>
          (⟨p, rn, m, .notRun, ⟨0, [], []⟩, []⟩ : ExecRecord)) := by
        rw [← h1]
        rfl
      refine ⟨?_, fun hc => Bool.noConfusion hc, ?_⟩
      · intro m
        rw [hfsinv]
        exact hcount1 m
      · intro _
        refine ⟨[], n, rest, rfl, ?_, ?_, ?_⟩
        · rcases List.exists_mem_of_ne_nil recs (hrecsne rfl) with ⟨rec, hrec⟩
          refine ⟨rec, ?_, (hrecs rec hrec).2.1, (hrecs rec hrec).2.2.1,
            (hrecs rec hrec).2.2.2.2 rfl⟩
          rw [hfsmeta, hmeta1]
          exact List.mem_append_left _ (List.mem_append_right _ hrec)
        · intro r hr hrn hrf
          rw [hfsmeta] at hr
          rcases List.mem_append.mp hr with hr | hr
          · rw [hmeta1] at hr
            rcases List.mem_append.mp hr with hr | hr
            · rcases hstatus r hr hrn with hcc | hcc <;>
                rw [hcc] at hrf <;> exact StepStatus.noConfusion hrf
            · exact (hrecs r hr).2.2.1
          · rcases List.mem_map.mp hr with ⟨m, _, hmr⟩
            rw [← hmr] at hrf
            exact StepStatus.noConfusion hrf
        · intro d hd
          constructor
          · refine ⟨⟨p, rn, d, .notRun, ⟨0, [], []⟩, []⟩, ?_, rfl⟩
            rw [hfsmeta, hmeta1, List.append_assoc, recordOf_append]
            have hnone1 : recordOf s.meta rn d = none := by
              refine recordOf_eq_none s.meta rn d ?_
              intro r hr hrn hc
              exact hmeta r hr hrn (by simp [hc, hd])
            rw [hnone1, Option.none_or, recordOf_append]
            have hnone2 : recordOf recs rn d = none := by
              refine recordOf_eq_none recs rn d ?_
              intro r hr _ hc
              rw [(hrecs r hr).2.2.1] at hc
              exact hn_rest (hc ▸ hd)
            rw [hnone2, Option.none_or]
            exact find?_notRun_map p rn rest d hd
          · rw [hfsinv, hinvoked]
            intro hc
            rcases List.mem_append.mp hc with hc | hc
            · exact hinv d hc (by simp [hd])
            · exact hn_rest ((hiv d hc) ▸ hd)

/-- C4: if a Step raises during a Run, that Step's StepExecution is
`failed`, the Run as a whole fails, every not-yet-started later Step
(in particular every downstream Step) is recorded `not run` — a
non-terminal status — and is never invoked, and no Step's logic is
invoked more than once (no retry inside the Run). -/
theorem step_failure_fails_run (w : Wiring) (p rn : String) (b : String → Bool)
    (ctx : ExecContext) (order : List String) (meta0 : List ExecRecord)
    (c0 : Nat) (fs : ExecState) (okr : Bool) (cname : String)
    (hrun : execOrder w p rn b ctx order ⟨meta0, c0, [], []⟩ = (fs, okr))
    (hnd : order.Nodup)
    (hm : ∀ r ∈ meta0, r.runName ≠ rn)
    (hfail : ∃ rec ∈ fs.meta, rec.runName = rn ∧ rec.stepName = cname ∧
      rec.status = .failed) :
    okr = false ∧
    (∀ i j, ∀ hi : i < order.length, ∀ hj : j < order.length,
      order.get ⟨i, hi⟩ = cname → i < j →
      (∃ rec, recordOf fs.meta rn (order.get ⟨j, hj⟩) = some rec ∧
        rec.status = .notRun ∧ rec.status.isTerminal = false) ∧
      order.get ⟨j, hj⟩ ∉ fs.invoked) ∧
    (∀ m, fs.invoked.count m ≤ 1) := by
  have hchar := execOrder_characterize w p rn b ctx order ⟨meta0, c0, [], []⟩ fs okr
    hrun hnd (by intro m hm2; simp at hm2) (by intro m; simp)
    (fun r hr hrn => absurd hrn (hm r hr))
    (fun r hr hrn => absurd hrn (hm r hr))
  rcases hchar with ⟨ca, cb, cc⟩
  have hokr : okr = false := by
    cases okr with
    | false => rfl
    | true =>
      rcases hfail with ⟨rec, hrec, hrn, _, hrf⟩
      rcases cb rfl rec hrec hrn with hcc | hcc <;> rw [hcc] at hrf <;>
        exact StepStatus.noConfusion hrf
  rcases cc hokr with ⟨l1, cfail, l2, hsplit, _, huniq, hrest⟩
  have hcname : cname = cfail := by
    rcases hfail with ⟨rec, hrec, hrn, hsn, hrf⟩
    rw [← hsn]
    exact (huniq rec hrec hrn hrf).symm ▸ rfl
  subst hcname
  subst hsplit
  refine ⟨hokr, ?_, ca⟩
  intro i j hi hj hgeti hij
  have hlen : (l1 ++ cname :: l2).length = l1.length + (l2.length + 1) := by
    simp
  have hl1lt : l1.length < (l1 ++ cname :: l2).length := by omega
  have hgetc : (l1 ++ cname :: l2).get ⟨l1.length, hl1lt⟩ = cname := by
    rw [List.get_eq_getElem, List.getElem_append_right (Nat.le_refl _)]
    simp
  have hieq : i = l1.length := by
    have hfin : (⟨i, hi⟩ : Fin (l1 ++ cname :: l2).length) = ⟨l1.length, hl1lt⟩ := by
      rw [← List.Nodup.get_inj_iff hnd]
      rw [hgeti, hgetc]
    exact congrArg Fin.val hfin
  have hjl2 : (l1 ++ cname :: l2).get ⟨j, hj⟩ ∈ l2 := by
    rw [List.get_eq_getElem]
    have hjge : l1.length ≤ j := by omega
    rw [List.getElem_append_right hjge, List.getElem_cons]
    have hk : ¬(j - l1.length = 0) := by omega
    rw [dif_neg hk]
    exact List.getElem_mem _
  rcases hrest ((l1 ++ cname :: l2).get ⟨j, hj⟩) hjl2 with ⟨⟨rec, hrec, hrecst⟩, hninv⟩
  exact ⟨⟨rec, hrec, hrecst, by rw [hrecst]; rfl⟩, hninv⟩

/-- Witness for C4: failing the trainer leaves the evaluator marked
not run and never invoked. -/
theorem step_failure_fails_run_witness :
    (∃ rec, recordOf
        [⟨"p", "r1", "importer", .completed, ⟨1, [], []⟩, [0, 1, 2, 3]⟩,
         ⟨"p", "r1", "trainer", .failed, ⟨2, [1], [0, 1]⟩, []⟩,
         ⟨"p", "r1", "evaluator", .notRun, ⟨0, [], []⟩, []⟩] "r1" "evaluator" =
        some rec ∧ rec.status = .notRun ∧ rec.status.isTerminal = false) ∧
    "evaluator" ∉ ["importer", "trainer"] :=
  (step_failure_fails_run sampleWiring "p" "r1" (fun n => !(n == "trainer"))
    ⟨0, 0, 0⟩ ["importer", "trainer", "evaluator"] [] 0
    ⟨[⟨"p", "r1", "importer", .completed, ⟨1, [], []⟩, [0, 1, 2, 3]⟩,
      ⟨"p", "r1", "trainer", .failed, ⟨2, [1], [0, 1]⟩, []⟩,
      ⟨"p", "r1", "evaluator", .notRun, ⟨0, [], []⟩, []⟩], 4,
      [("importer", [0, 1, 2, 3])], ["importer", "trainer"]⟩ false "trainer"
    (by decide) (by decide) (by simp) (by decide)).2.1 1 2 (by decide) (by decide)
    (by decide) (by decide)

lemma getOut_append_ne (om δ : List (String × List Nat)) (d : String)
    (h : ∀ e ∈ δ, e.1 ≠ d) : getOut (om ++ δ) d = getOut om d := by
  unfold getOut
  rw [List.find?_append]
  have hδ : δ.find? (fun e => decide (e.1 = d)) = none := by
    refine List.find?_eq_none.mpr ?_
    intro e he
    simpa using h e he
  rw [hδ, Option.or_none]

lemma getOut_append_some (om δ : List (String × List Nat)) (d : String)
    (v : List Nat) (h : getOut om d = some v) : getOut (om ++ δ) d = some v := by
  unfold getOut at h ⊢
  rw [List.find?_append]
  rcases Option.map_eq_some'.mp h with ⟨e, he, hev⟩
  rw [he]
  simp [hev]

lemma findCacheHit_append_some (m1 m2 : List ExecRecord) (p : String)
    (k : CacheKey) (r : ExecRecord) (h : findCacheHit m1 p k = some r) :
    findCacheHit (m1 ++ m2) p k = some r := by
  unfold findCacheHit at h ⊢
  rw [List.find?_append, h]
  rfl

lemma recordOf_append_some (m1 m2 : List ExecRecord) (rn n : String)
    (r : ExecRecord) (h : recordOf m1 rn n = some r) :
    recordOf (m1 ++ m2) rn n = some r := by
  unfold recordOf at h ⊢
  rw [List.find?_append, h]
  rfl

lemma execStep_cont_true (w : Wiring) (p rn : String) (b : String → Bool)
    (ctx : ExecContext) (s : ExecState) (n : String) (hb : b n = true) :
    ∀ s1 cont, execStep w p rn b ctx s n = (s1, cont) → cont = true := by
  intro s1 cont h
  unfold execStep at h
  cases hdecl : declOf w n with
  | none =>
    rw [hdecl] at h
    injection h with _ h2
    exact h2.symm
  | some st =>
    rw [hdecl] at h
    simp only at h
    split at h
    · injection h with _ h2
      exact h2.symm
    · rw [hb] at h
      simp only [if_true] at h
      injection h with _ h2
      exact h2.symm

lemma execOrder_extends (w : Wiring) (p rn : String) (b : String → Bool)
    (ctx : ExecContext) :
    ∀ rest s fs okr, execOrder w p rn b ctx rest s = (fs, okr) →
      (∃ Δ, fs.meta = s.meta ++ Δ ∧
        ∀ r ∈ Δ, r.pipeline = p ∧ r.runName = rn ∧ r.stepName ∈ rest) ∧
      (∃ δ, fs.outMap = s.outMap ++ δ ∧ ∀ e ∈ δ, e.1 ∈ rest) ∧
      (∃ ι, fs.invoked = s.invoked ++ ι ∧ ∀ m ∈ ι, m ∈ rest) := by
  intro rest
  induction rest with
  | nil =>
    intro s fs okr h
    unfold execOrder at h
    injection h with h1 _
    subst h1
    exact ⟨⟨[], by simp, by simp⟩, ⟨[], by simp, by simp⟩, ⟨[], by simp, by simp⟩⟩
  | cons n rest ih =>
    intro s fs okr h
    unfold execOrder at h
    rcases hse : execStep w p rn b ctx s n with ⟨s1, cont⟩
    rw [hse] at h
    rcases execStep_props w p rn b ctx s n s1 cont hse with
      ⟨⟨recs, hmeta1, hrecs, _⟩, ⟨os, houtmap, hos⟩, ⟨iv, hinvoked, _, hiv⟩⟩
    cases cont with
    | true =>
      simp only at h
      rcases ih s1 fs okr h with ⟨⟨Δ, hΔ, hΔp⟩, ⟨δ, hδ, hδp⟩, ⟨ι, hι, hιp⟩⟩
      refine ⟨⟨recs ++ Δ, by rw [hΔ, hmeta1, List.append_assoc], ?_⟩,
        ⟨os ++ δ, by rw [hδ, houtmap, List.append_assoc], ?_⟩,
        ⟨iv ++ ι, by rw [hι, hinvoked, List.append_assoc], ?_⟩⟩
      · intro r hr
        rcases List.mem_append.mp hr with hr | hr
        · exact ⟨(hrecs r hr).1, (hrecs r hr).2.1, by simp [(hrecs r hr).2.2.1]⟩
        · exact ⟨(hΔp r hr).1, (hΔp r hr).2.1, by simp [(hΔp r hr).2.2]⟩
      · intro e he
        rcases List.mem_append.mp he with he | he
        · simp [hos e he]
        · simp [hδp e he]
      · intro m hm
        rcases List.mem_append.mp hm with hm | hm
        · simp [hiv m hm]
        · simp [hιp m hm]
    | false =>
      simp only at h
      injection h with h1 _
      subst h1
      refine ⟨⟨recs ++ rest.map (fun m =>
          (⟨p, rn, m, .notRun, ⟨0, [], []⟩, []⟩ : ExecRecord)),
          by rw [markNotRun_meta, hmeta1, List.append_assoc], ?_⟩,
        ⟨os, by rw [show (markNotRun p rn rest s1).outMap = s1.outMap from rfl,
          houtmap], fun e he => by simp [hos e he]⟩,
        ⟨iv, by rw [markNotRun_invoked, hinvoked], ?_⟩⟩
      · intro r hr
        rcases List.mem_append.mp hr with hr | hr
        · exact ⟨(hrecs r hr).1, (hrecs r hr).2.1, by simp [(hrecs r hr).2.2.1]⟩
        · rcases List.mem_map.mp hr with ⟨m, hm, hmr⟩
          rw [← hmr]
          exact ⟨rfl, rfl, by simp [hm]⟩
      · intro m hm
        simp [hiv m hm]

lemma getOut_execOrder_stable (w : Wiring) (p rn : String) (b : String → Bool)
    (ctx : ExecContext) (rest : List String) (s fs : ExecState) (okr : Bool)
    (h : execOrder w p rn b ctx rest s = (fs, okr)) (d : String) (hd : d ∉ rest) :
    getOut fs.outMap d = getOut s.outMap d := by
  rcases (execOrder_extends w p rn b ctx rest s fs okr h).2.1 with ⟨δ, hδ, hδp⟩
  rw [hδ]
  refine getOut_append_ne s.outMap δ d ?_
  intro e he hc
  exact hd (hc ▸ hδp e he)

lemma inputRefsOf_congr (w : Wiring) (om1 om2 : List (String × List Nat))
    (st : StepDecl) (h : ∀ d ∈ depsOf w st, getOut om1 d = getOut om2 d) :
    inputRefsOf w om1 st = inputRefsOf w om2 st := by
  unfold inputRefsOf
  refine List.filterMap_congr ?_
  intro i hi
  cases hb : lookupBinding w st.name i.iname with
  | none => simp only [hb]
  | some bind =>
    cases bind with
    | literal ty => simp only [hb]
    | fromStep pr o =>
      cases hdecl : declOf w pr with
      | none => simp only [hb, hdecl]
      | some pd =>
        simp only [hb, hdecl]
        have hpr : pr ∈ depsOf w st := by
          unfold depsOf
          refine List.mem_filterMap.mpr ⟨i, hi, ?_⟩
          rw [hb]
          simp [hdecl]
        rw [h pr hpr]

lemma stableSteps_spec (w : Wiring) (order : List String) :
    ∀ n ∈ stableSteps w order, ∃ st, declOf w n = some st ∧
      st.enableCache = true ∧ ∀ d ∈ depsOf w st, d ∈ stableSteps w order := by
  unfold stableSteps
  suffices haux : ∀ l acc,
      (∀ n ∈ acc, ∃ st, declOf w n = some st ∧ st.enableCache = true ∧
        ∀ d ∈ depsOf w st, d ∈ acc) →
      ∀ n ∈ List.foldl (fun (acc : List String) (n : String) =>
          match declOf w n with
          | some st =>
            if st.enableCache && (depsOf w st).all (fun d => acc.contains d) then
              acc ++ [n]
            else acc
          | none => acc) acc l,
        ∃ st, declOf w n = some st ∧ st.enableCache = true ∧
          ∀ d ∈ depsOf w st, d ∈ List.foldl (fun (acc : List String) (n : String) =>
            match declOf w n with
            | some st =>
              if st.enableCache && (depsOf w st).all (fun d => acc.contains d) then
                acc ++ [n]
              else acc
            | none => acc) acc l by
    intro n hn
    exact haux order [] (by simp) n hn
  intro l
  induction l with
  | nil =>
    intro acc hacc n hn
    exact hacc n hn
  | cons m l ih =>
    intro acc hacc n hn
    rw [List.foldl_cons] at hn ⊢
    refine ih _ ?_ n hn
    cases hdecl : declOf w m with
    | none =>
      simp only [hdecl]
      exact hacc
    | some st =>
      simp only [hdecl]
      by_cases hcond : (st.enableCache && (depsOf w st).all
          (fun d => acc.contains d)) = true
      · rw [if_pos hcond]
        intro n2 hn2
        rcases List.mem_append.mp hn2 with hn2 | hn2
        · rcases hacc n2 hn2 with ⟨st2, h1, h2, h3⟩
          exact ⟨st2, h1, h2, fun d hd => List.mem_append_left _ (h3 d hd)⟩
        · rcases List.mem_singleton.mp hn2 with rfl
          have hcond2 := hcond
          simp only [Bool.and_eq_true] at hcond2
          obtain ⟨hc1, hc2⟩ := hcond2
          refine ⟨st, hdecl, hc1, ?_⟩
          intro d hd
          have := List.all_eq_true.mp hc2 d hd
          simp at this
          exact List.mem_append_left _ this
      · rw [if_neg hcond]
        exact hacc

lemma stableSteps_sub (w : Wiring) (order : List String) :
    ∀ n ∈ stableSteps w order, n ∈ order := by
  unfold stableSteps
  suffices haux : ∀ l acc, ∀ n ∈ List.foldl (fun (acc : List String) (n : String) =>
      match declOf w n with
      | some st =>
        if st.enableCache && (depsOf w st).all (fun d => acc.contains d) then
          acc ++ [n]
        else acc
      | none => acc) acc l, n ∈ acc ∨ n ∈ l by
    intro n hn
    rcases haux order [] n hn with h | h
    · simp at h
    · exact h
  intro l
  induction l with
  | nil =>
    intro acc n hn
    exact Or.inl hn
  | cons m l ih =>
    intro acc n hn
    rw [List.foldl_cons] at hn
    rcases ih _ n hn with h | h
    · cases hdecl : declOf w m with
      | none =>
        rw [hdecl] at h
        exact Or.inl h
      | some st =>
        rw [hdecl] at h
        simp only at h
        by_cases hcond : (st.enableCache && (depsOf w st).all
            (fun d => acc.contains d)) = true
        · rw [if_pos hcond] at h
          rcases List.mem_append.mp h with h | h
          · exact Or.inl h
          · rcases List.mem_singleton.mp h with rfl
            exact Or.inr (by simp)
        · rw [if_neg hcond] at h
          exact Or.inl h
    · exact Or.inr (by simp [h])

lemma buildDag_ok_topoSort (w : Wiring) (order : List String)
    (h : buildDag w = .ok order) : topoSort w = .ok order := by
  unfold buildDag at h
  cases hts : topoSort w with
  | error e =>
    rw [hts] at h
    exact Except.noConfusion h
  | ok o =>
    rw [hts] at h
    cases hv : validateInputs w w.steps with
    | error e =>
      rw [hv] at h
      exact Except.noConfusion h
    | ok u =>
      rw [hv] at h
      injection h with h1
      rw [h1]

lemma declOf_mem_name (w : Wiring) (n : String) (st : StepDecl)
    (h : declOf w n = some st) : st ∈ w.steps ∧ st.name = n := by
  refine ⟨List.mem_of_find?_eq_some h, ?_⟩
  have := List.find?_some h
  simpa using this

lemma buildDag_deps_before (w : Wiring) (order : List String)
    (hndw : (stepNames w).Nodup) (h : buildDag w = .ok order) :
    (∀ l1 n l2, order = l1 ++ n :: l2 → ∀ st, declOf w n = some st →
      ∀ d ∈ depsOf w st, d ∈ l1) ∧ order.Nodup := by
  have hts := buildDag_ok_topoSort w order h
  have hprops := topoAux_ok_props w hndw w.steps.length w.steps [] order
    (initial_rem w) List.nodup_nil (by simp) (by simp) (by simp) hts
  rcases hprops with ⟨hndo, _, _, htopo⟩
  refine ⟨?_, hndo⟩
  intro l1 n l2 hsplit st hdecl d hd
  rcases declOf_mem_name w n st hdecl with ⟨hmem, hname⟩
  have hl1lt : l1.length < order.length := by
    rw [hsplit]
    simp
  have hget : order.get ⟨l1.length, hl1lt⟩ = st.name := by
    rw [hname, List.get_eq_getElem]
    subst hsplit
    rw [List.getElem_append_right (Nat.le_refl _)]
    simp
  have htake := htopo st hmem l1.length hl1lt hget d hd
  rw [hsplit, List.take_left] at htake
  exact htake

lemma recordOf_singleton_match (r : ExecRecord) (rn n : String)
    (h1 : r.runName = rn) (h2 : r.stepName = n) : recordOf [r] rn n = some r := by
  unfold recordOf
  rw [List.find?_cons]
  have hp : (decide (r.runName = rn ∧ r.stepName = n)) = true := by
    simp only [decide_eq_true_eq]
    exact ⟨h1, h2⟩
  rw [hp]

lemma recordOf_none_append_none (m1 m2 : List ExecRecord) (rn n : String)
    (h1 : recordOf m1 rn n = none) (h2 : recordOf m2 rn n = none) :
    recordOf (m1 ++ m2) rn n = none := by
  rw [recordOf_append, h1, h2]
  rfl

lemma getOut_append_single (om : List (String × List Nat)) (n : String)
    (v : List Nat) (h : ∀ e ∈ om, e.1 ≠ n) :
    getOut (om ++ [(n, v)]) n = some v := by
  unfold getOut
  rw [List.find?_append]
  have h0 : om.find? (fun e => decide (e.1 = n)) = none := by
    refine List.find?_eq_none.mpr ?_
    intro e he
    simpa using h e he
  rw [h0, Option.none_or]
  simp [List.find?_cons]

lemma findCacheHit_append_none (m1 m2 : List ExecRecord) (p : String) (k : CacheKey)
    (h : findCacheHit m1 p k = none) :
    findCacheHit (m1 ++ m2) p k = findCacheHit m2 p k := by
  unfold findCacheHit at h ⊢
  rw [List.find?_append, h, Option.none_or]

lemma findCacheHit_singleton_match (p : String) (k : CacheKey) (r : ExecRecord)
    (h1 : r.pipeline = p) (h2 : r.status = .completed ∨ r.status = .cached)
    (h3 : r.key = k) : findCacheHit [r] p k = some r := by
  unfold findCacheHit
  rw [List.find?_cons]
  have hp : (decide (r.pipeline = p ∧ (r.status = .completed ∨ r.status = .cached) ∧
      r.key = k)) = true := by
    simp only [decide_eq_true_eq]
    exact ⟨h1, h2, h3⟩
  rw [hp]

lemma runs_agree (w : Wiring) (p rn1 rn2 : String) (b1 b2 : String → Bool)
    (ctx1 ctx2 : ExecContext) (s1f : ExecState) (S : List String)
    (HS : ∀ n ∈ S, ∃ st, declOf w n = some st ∧ st.enableCache = true ∧
      ∀ d ∈ depsOf w st, d ∈ S)
    (hb2 : ∀ m, b2 m = true)
    (hP8 : ∀ r ∈ s1f.meta, r.runName ≠ rn2) :
    ∀ rest done s1 s2 s2f okr2,
      (done ++ rest).Nodup →
      (∀ l1 n l2, rest = l1 ++ n :: l2 → ∀ st, declOf w n = some st →
        ∀ d ∈ depsOf w st, d ∈ done ++ l1) →
      execOrder w p rn1 b1 ctx1 rest s1 = (s1f, true) →
      (∀ r ∈ s1.meta, r.runName = rn1 → r.stepName ∉ rest) →
      (∀ e ∈ s1.outMap, e.1 ∉ rest) →
      (∀ n ∈ S, n ∈ done → getOut s2.outMap n = getOut s1f.outMap n) →
      (∃ extra, s2.meta = s1f.meta ++ extra ∧ ∀ r ∈ extra, r.stepName ∈ done) →
      (∀ m ∈ s2.invoked, m ∈ done) →
      (∀ e ∈ s2.outMap, e.1 ∈ done) →
      (∀ n ∈ S, n ∈ done →
        ∃ rec2 rec1, recordOf s2.meta rn2 n = some rec2 ∧
          recordOf s1f.meta rn1 n = some rec1 ∧ rec2.status = .cached ∧
          (rec1.status = .completed ∨ rec1.status = .cached) ∧
          rec2.outputRefs = rec1.outputRefs ∧ n ∉ s2.invoked) →
      execOrder w p rn2 b2 ctx2 rest s2 = (s2f, okr2) →
      ∀ n ∈ S, n ∈ done ++ rest →
        ∃ rec2 rec1, recordOf s2f.meta rn2 n = some rec2 ∧
          recordOf s1f.meta rn1 n = some rec1 ∧ rec2.status = .cached ∧
          (rec1.status = .completed ∨ rec1.status = .cached) ∧
          rec2.outputRefs = rec1.outputRefs ∧ n ∉ s2f.invoked := by
  intro rest
  induction rest with
  | nil =>
    intro done s1 s2 s2f okr2 _ _ _ _ _ _ _ _ _ hG hrun2 n hnS hnmem
    unfold execOrder at hrun2
    injection hrun2 with h1 _
    subst h1
    exact hG n hnS (by simpa using hnmem)
  | cons n rest ih =>
    intro done s1 s2 s2f okr2 hnodup hsplitdeps hrun1 hq1 hq2 hp4 hp5 hp7 hp9 hG hrun2
    have hrun1full := hrun1
    rcases hp5 with ⟨extra, hextra, hextrap⟩
    have hlisteq : done ++ n :: rest = (done ++ [n]) ++ rest := by simp
    have hnodup2 : ((done ++ [n]) ++ rest).Nodup := by
      rw [← hlisteq]
      exact hnodup
    have hdisj := (List.nodup_append.mp hnodup).2.2
    have hn_notdone : n ∉ done := by
      intro hc
      exact hdisj hc (by simp)
    have hconsnd : (n :: rest).Nodup := (List.nodup_append.mp hnodup).2.1
    have hn_notrest : n ∉ rest := (List.nodup_cons.mp hconsnd).1
    have hdone_notnrest : ∀ d ∈ done, d ∉ n :: rest := fun d hd => hdisj hd
    have hsplitdeps2 : ∀ l1 m l2, rest = l1 ++ m :: l2 → ∀ st,
        declOf w m = some st → ∀ d ∈ depsOf w st, d ∈ (done ++ [n]) ++ l1 := by
      intro l1 m l2 hsp st hdecl d hd
      have h := hsplitdeps (n :: l1) m l2 (by rw [hsp]; rfl) st hdecl d hd
      have he : done ++ n :: l1 = (done ++ [n]) ++ l1 := by simp
      rw [← he]
      exact h
    unfold execOrder at hrun1
    rcases hse1 : execStep w p rn1 b1 ctx1 s1 n with ⟨s1m, cont1⟩
    rw [hse1] at hrun1
    cases cont1 with
    | false =>
      simp only at hrun1
      injection hrun1 with _ hc
      exact absurd hc.symm (by simp)
    | true =>
      simp only at hrun1
      unfold execOrder at hrun2
      rcases hse2 : execStep w p rn2 b2 ctx2 s2 n with ⟨s2m, cont2⟩
      rw [hse2] at hrun2
      have hcont2 := execStep_cont_true w p rn2 b2 ctx2 s2 n (hb2 n) s2m cont2 hse2
      subst hcont2
      simp only at hrun2
      by_cases hnS : n ∈ S
      · -- the cache-stable case: run 2 hits the cache with run 1's references
        rcases HS n hnS with ⟨st, hstdecl, hcache, hdepsS⟩
        have hdeps_done : ∀ d ∈ depsOf w st, d ∈ done := by
          intro d hd
          have h := hsplitdeps [] n rest rfl st hstdecl d hd
          simpa using h
        have hrefs : inputRefsOf w s2.outMap st = inputRefsOf w s1.outMap st := by
          refine inputRefsOf_congr w _ _ st ?_
          intro d hd
          have hd_done := hdeps_done d hd
          have h1 : getOut s2.outMap d = getOut s1f.outMap d :=
            hp4 d (hdepsS d hd) hd_done
          have h2 : getOut s1f.outMap d = getOut s1.outMap d :=
            getOut_execOrder_stable w p rn1 b1 ctx1 (n :: rest) s1 s1f true
              hrun1full d (hdone_notnrest d hd_done)
          rw [h1, h2]
        have hkeyeq : computeCacheKey ctx2 st.codeId st.config
            (inputRefsOf w s2.outMap st) = computeCacheKey ctx1 st.codeId st.config
            (inputRefsOf w s1.outMap st) := by
          rw [hrefs]
          rfl
        unfold execStep at hse1 hse2
        rw [hstdecl] at hse1 hse2
        simp only at hse1 hse2
        rw [if_pos hcache] at hse1 hse2
        have hcommon : ∀ R1 : ExecRecord,
            R1.runName = rn1 → R1.stepName = n →
            (R1.status = .completed ∨ R1.status = .cached) →
            s1m.meta = s1.meta ++ [R1] →
            s1m.outMap = s1.outMap ++ [(n, R1.outputRefs)] →
            s2m.meta = s2.meta ++ [⟨p, rn2, n, .cached,
              computeCacheKey ctx2 st.codeId st.config (inputRefsOf w s2.outMap st),
              R1.outputRefs⟩] →
            s2m.outMap = s2.outMap ++ [(n, R1.outputRefs)] →
            s2m.invoked = s2.invoked →
            ∀ n2 ∈ S, n2 ∈ done ++ n :: rest →
              ∃ rec2 rec1, recordOf s2f.meta rn2 n2 = some rec2 ∧
                recordOf s1f.meta rn1 n2 = some rec1 ∧ rec2.status = .cached ∧
                (rec1.status = .completed ∨ rec1.status = .cached) ∧
                rec2.outputRefs = rec1.outputRefs ∧ n2 ∉ s2f.invoked := by
          intro R1 hR1rn hR1sn hR1st hm1eq ho1eq hm2eq ho2eq hi2eq
          rcases (execOrder_extends w p rn1 b1 ctx1 rest s1m s1f true hrun1).1 with
            ⟨dl, hdl, _⟩
          have hs1fmeta : s1f.meta = (s1.meta ++ [R1]) ++ dl := by
            rw [hdl, hm1eq]
          have hrec1find : recordOf s1f.meta rn1 n = some R1 := by
            rw [hs1fmeta]
            refine recordOf_append_some _ _ _ _ _ ?_
            have hnone : recordOf s1.meta rn1 n = none := by
              refine recordOf_eq_none _ _ _ ?_
              intro r hr hrn hc
              exact hq1 r hr hrn (by simp [hc])
            rw [recordOf_append, hnone, Option.none_or]
            exact recordOf_singleton_match R1 rn1 n hR1rn hR1sn
          have houtf : getOut s1f.outMap n = some R1.outputRefs := by
            have hstab : getOut s1f.outMap n = getOut s1m.outMap n :=
              getOut_execOrder_stable w p rn1 b1 ctx1 rest s1m s1f true
                hrun1 n hn_notrest
            rw [hstab, ho1eq]
            refine getOut_append_single _ _ _ ?_
            intro e he hc
            exact hq2 e he (by simp [hc])
          have hQ1 : ∀ r ∈ s1m.meta, r.runName = rn1 → r.stepName ∉ rest := by
            intro r hr hrn
            rw [hm1eq] at hr
            rcases List.mem_append.mp hr with hr | hr
            · intro hc
              exact hq1 r hr hrn (by simp [hc])
            · rcases List.mem_singleton.mp hr with rfl
              rw [hR1sn]
              exact hn_notrest
          have hQ2 : ∀ e ∈ s1m.outMap, e.1 ∉ rest := by
            intro e he
            rw [ho1eq] at he
            rcases List.mem_append.mp he with he | he
            · intro hc
              exact hq2 e he (by simp [hc])
            · rcases List.mem_singleton.mp he with rfl
              exact hn_notrest
          have hP4 : ∀ n2 ∈ S, n2 ∈ done ++ [n] →
              getOut s2m.outMap n2 = getOut s1f.outMap n2 := by
            intro n2 hn2S hn2mem
            rcases List.mem_append.mp hn2mem with hn2 | hn2
            · rw [ho2eq, getOut_append_ne]
              · exact hp4 n2 hn2S hn2
              · intro e he hc
                rcases List.mem_singleton.mp he with rfl
                have hc2 : n = n2 := hc
                rw [← hc2] at hn2
                exact hn_notdone hn2
            · rcases List.mem_singleton.mp hn2 with rfl
              rw [ho2eq, getOut_append_single, houtf]
              intro e he hc
              have hmem := hp9 e he
              rw [hc] at hmem
              exact hn_notdone hmem
          have hP5 : ∃ extra2, s2m.meta = s1f.meta ++ extra2 ∧
              ∀ r ∈ extra2, r.stepName ∈ done ++ [n] := by
            refine ⟨extra ++ [⟨p, rn2, n, .cached,
              computeCacheKey ctx2 st.codeId st.config (inputRefsOf w s2.outMap st),
              R1.outputRefs⟩], by rw [hm2eq, hextra, List.append_assoc], ?_⟩
            intro r hr
            rcases List.mem_append.mp hr with hr | hr
            · exact List.mem_append_left _ (hextrap r hr)
            · rcases List.mem_singleton.mp hr with rfl
              simp
          have hP7 : ∀ m ∈ s2m.invoked, m ∈ done ++ [n] := by
            intro m hm
            rw [hi2eq] at hm
            exact List.mem_append_left _ (hp7 m hm)
          have hP9 : ∀ e ∈ s2m.outMap, e.1 ∈ done ++ [n] := by
            intro e he
            rw [ho2eq] at he
            rcases List.mem_append.mp he with he | he
            · exact List.mem_append_left _ (hp9 e he)
            · rcases List.mem_singleton.mp he with rfl
              simp
          have hGnone : recordOf s2.meta rn2 n = none := by
            rw [hextra]
            refine recordOf_none_append_none _ _ _ _ ?_ ?_
            · refine recordOf_eq_none _ _ _ ?_
              intro r hr hrn _
              exact absurd hrn (hP8 r hr)
            · refine recordOf_eq_none _ _ _ ?_
              intro r hr _ hc
              exact hn_notdone (hc ▸ hextrap r hr)
          have hGnew : ∀ n2 ∈ S, n2 ∈ done ++ [n] →
              ∃ rec2 rec1, recordOf s2m.meta rn2 n2 = some rec2 ∧
                recordOf s1f.meta rn1 n2 = some rec1 ∧ rec2.status = .cached ∧
                (rec1.status = .completed ∨ rec1.status = .cached) ∧
                rec2.outputRefs = rec1.outputRefs ∧ n2 ∉ s2m.invoked := by
            intro n2 hn2S hn2mem
            rcases List.mem_append.mp hn2mem with hn2 | hn2
            · rcases hG n2 hn2S hn2 with ⟨rec2, rec1, ha, hbb, hc, hd, he, hf⟩
              refine ⟨rec2, rec1, ?_, hbb, hc, hd, he, ?_⟩
              · rw [hm2eq]
                exact recordOf_append_some _ _ _ _ _ ha
              · rw [hi2eq]
                exact hf
            · rcases List.mem_singleton.mp hn2 with rfl
              refine ⟨⟨p, rn2, n2, .cached,
                computeCacheKey ctx2 st.codeId st.config
                  (inputRefsOf w s2.outMap st), R1.outputRefs⟩, R1, ?_,
                hrec1find, rfl, hR1st, rfl, ?_⟩
              · rw [hm2eq, recordOf_append, hGnone, Option.none_or]
                exact recordOf_singleton_match _ _ _ rfl rfl
              · rw [hi2eq]
                intro hc
                exact hn_notdone (hp7 n2 hc)
          have hres := ih (done ++ [n]) s1m s2m s2f okr2 hnodup2 hsplitdeps2
            hrun1 hQ1 hQ2 hP4 hP5 hP7 hP9 hGnew hrun2
          intro n2 hn2S hn2mem
          refine hres n2 hn2S ?_
          rw [← hlisteq]
          exact hn2mem
        cases hhit1 : findCacheHit s1.meta p (computeCacheKey ctx1 st.codeId
            st.config (inputRefsOf w s1.outMap st)) with
        | some r0 =>
          rw [hhit1] at hse1
          injection hse1 with hs1m _
          have hfind2 : findCacheHit s2.meta p (computeCacheKey ctx2 st.codeId
              st.config (inputRefsOf w s2.outMap st)) = some r0 := by
            rw [hkeyeq, hextra]
            refine findCacheHit_append_some _ _ _ _ _ ?_
            rcases (execOrder_extends w p rn1 b1 ctx1 (n :: rest) s1 s1f true
              hrun1full).1 with ⟨df, hdf, _⟩
            rw [hdf]
            exact findCacheHit_append_some _ _ _ _ _ hhit1
          rw [hfind2] at hse2
          injection hse2 with hs2m _
          refine hcommon ⟨p, rn1, n, .cached, computeCacheKey ctx1 st.codeId
              st.config (inputRefsOf w s1.outMap st), r0.outputRefs⟩
            rfl rfl (Or.inr rfl) ?_ ?_ ?_ ?_ ?_
          · rw [← hs1m]
          · rw [← hs1m]
          · rw [← hs2m]
          · rw [← hs2m]
          · rw [← hs2m]
        | none =>
          rw [hhit1] at hse1
          cases hb1n : b1 n with
          | false =>
            rw [hb1n] at hse1
            rw [if_neg (by simp)] at hse1
            injection hse1 with _ hc
            exact absurd hc (by simp)
          | true =>
            rw [hb1n] at hse1
            rw [if_pos rfl] at hse1
            injection hse1 with hs1m _
            have hfind2 : findCacheHit s2.meta p (computeCacheKey ctx2 st.codeId
                st.config (inputRefsOf w s2.outMap st)) =
                some ⟨p, rn1, n, .completed, computeCacheKey ctx1 st.codeId
                  st.config (inputRefsOf w s1.outMap st),
                  (List.range st.outputs.length).map (fun j => s1.counter + j)⟩ := by
              rw [hkeyeq, hextra]
              refine findCacheHit_append_some _ _ _ _ _ ?_
              rcases (execOrder_extends w p rn1 b1 ctx1 rest s1m s1f true
                hrun1).1 with ⟨dl, hdl, _⟩
              rw [hdl, ← hs1m]
              show findCacheHit ((s1.meta ++ [⟨p, rn1, n, .completed,
                computeCacheKey ctx1 st.codeId st.config
                  (inputRefsOf w s1.outMap st),
                (List.range st.outputs.length).map (fun j => s1.counter + j)⟩]) ++
                dl) p (computeCacheKey ctx1 st.codeId st.config
                  (inputRefsOf w s1.outMap st)) = _
              refine findCacheHit_append_some _ _ _ _ _ ?_
              rw [findCacheHit_append_none _ _ _ _ hhit1]
              exact findCacheHit_singleton_match _ _ _ rfl (Or.inl rfl) rfl
            rw [hfind2] at hse2
            injection hse2 with hs2m _
            refine hcommon ⟨p, rn1, n, .completed, computeCacheKey ctx1 st.codeId
                st.config (inputRefsOf w s1.outMap st),
                (List.range st.outputs.length).map (fun j => s1.counter + j)⟩
              rfl rfl (Or.inl rfl) ?_ ?_ ?_ ?_ ?_
            · rw [← hs1m]
            · rw [← hs1m]
            · rw [← hs2m]
            · rw [← hs2m]
            · rw [← hs2m]
      · -- a step outside the cache-stable set: both runs just move on
        rcases execStep_props w p rn1 b1 ctx1 s1 n s1m true hse1 with
          ⟨⟨recs1, hm1, hrecs1, _⟩, ⟨os1, ho1, hos1⟩, ⟨iv1, hi1, _, hiv1⟩⟩
        rcases execStep_props w p rn2 b2 ctx2 s2 n s2m true hse2 with
          ⟨⟨recs2, hm2, hrecs2, _⟩, ⟨os2, ho2, hos2⟩, ⟨iv2, hi2, _, hiv2⟩⟩
        have hQ1 : ∀ r ∈ s1m.meta, r.runName = rn1 → r.stepName ∉ rest := by
          intro r hr hrn
          rw [hm1] at hr
          rcases List.mem_append.mp hr with hr | hr
          · intro hc
            exact hq1 r hr hrn (by simp [hc])
          · rw [(hrecs1 r hr).2.2.1]
            exact hn_notrest
        have hQ2 : ∀ e ∈ s1m.outMap, e.1 ∉ rest := by
          intro e he
          rw [ho1] at he
          rcases List.mem_append.mp he with he | he
          · intro hc
            exact hq2 e he (by simp [hc])
          · rw [hos1 e he]
            exact hn_notrest
        have hP4 : ∀ n2 ∈ S, n2 ∈ done ++ [n] →
            getOut s2m.outMap n2 = getOut s1f.outMap n2 := by
          intro n2 hn2S hn2mem
          rcases List.mem_append.mp hn2mem with hn2 | hn2
          · rw [ho2, getOut_append_ne]
            · exact hp4 n2 hn2S hn2
            · intro e he hc
              rw [hos2 e he] at hc
              exact hn_notdone (hc ▸ hn2)
          · rcases List.mem_singleton.mp hn2 with rfl
            exact absurd hn2S hnS
        have hP5 : ∃ extra2, s2m.meta = s1f.meta ++ extra2 ∧
            ∀ r ∈ extra2, r.stepName ∈ done ++ [n] := by
          refine ⟨extra ++ recs2, by rw [hm2, hextra, List.append_assoc], ?_⟩
          intro r hr
          rcases List.mem_append.mp hr with hr | hr
          · exact List.mem_append_left _ (hextrap r hr)
          · rw [(hrecs2 r hr).2.2.1]
            simp
        have hP7 : ∀ m ∈ s2m.invoked, m ∈ done ++ [n] := by
          intro m hm
          rw [hi2] at hm
          rcases List.mem_append.mp hm with hm | hm
          · exact List.mem_append_left _ (hp7 m hm)
          · rw [hiv2 m hm]
            simp
        have hP9 : ∀ e ∈ s2m.outMap, e.1 ∈ done ++ [n] := by
          intro e he
          rw [ho2] at he
          rcases List.mem_append.mp he with he | he
          · exact List.mem_append_left _ (hp9 e he)
          · rw [hos2 e he]
            simp
        have hGnew : ∀ n2 ∈ S, n2 ∈ done ++ [n] →
            ∃ rec2 rec1, recordOf s2m.meta rn2 n2 = some rec2 ∧
              recordOf s1f.meta rn1 n2 = some rec1 ∧ rec2.status = .cached ∧
              (rec1.status = .completed ∨ rec1.status = .cached) ∧
              rec2.outputRefs = rec1.outputRefs ∧ n2 ∉ s2m.invoked := by
          intro n2 hn2S hn2mem
          rcases List.mem_append.mp hn2mem with hn2 | hn2
          · rcases hG n2 hn2S hn2 with ⟨rec2, rec1, ha, hbb, hc, hd, he, hf⟩
            refine ⟨rec2, rec1, ?_, hbb, hc, hd, he, ?_⟩
            · rw [hm2]
              exact recordOf_append_some _ _ _ _ _ ha
            · rw [hi2]
              intro hcon
              rcases List.mem_append.mp hcon with hcon | hcon
              · exact hf hcon
              · exact hn_notdone ((hiv2 n2 hcon) ▸ hn2)
          · rcases List.mem_singleton.mp hn2 with rfl
            exact absurd hn2S hnS
        have hres := ih (done ++ [n]) s1m s2m s2f okr2 hnodup2 hsplitdeps2
          hrun1 hQ1 hQ2 hP4 hP5 hP7 hP9 hGnew hrun2
        intro n2 hn2S hn2mem
        refine hres n2 hn2S ?_
        rw [← hlisteq]
        exact hn2mem

/-- C3: re-running a pipeline whose prior run completed, with identical
step code and configuration (same wiring), yields for every
cache-stable step (caching enabled on it and on its entire upstream
cone, so its upstream artifacts are byte-identical) a StepExecution
with status `cached` whose output artifact references equal the prior
run's record for that step, without invoking that step's logic. -/
theorem rerun_yields_cached (w : Wiring) (p rn1 rn2 : String)
    (b1 b2 : String → Bool) (ctx1 ctx2 : ExecContext)
    (meta0 : List ExecRecord) (c0 : Nat) (order : List String)
    (s1f s2f : ExecState) (okr2 : Bool)
    (hndw : (stepNames w).Nodup)
    (hbuild : buildDag w = .ok order)
    (hm1 : ∀ r ∈ meta0, r.runName ≠ rn1)
    (hm2 : ∀ r ∈ meta0, r.runName ≠ rn2)
    (hrn : rn1 ≠ rn2)
    (hb2 : ∀ m, b2 m = true)
    (hrun1 : execOrder w p rn1 b1 ctx1 order
      ⟨meta0, c0, [], []⟩ = (s1f, true))
    (hrun2 : execOrder w p rn2 b2 ctx2 order
      ⟨s1f.meta, s1f.counter, [], []⟩ = (s2f, okr2)) :
    ∀ n ∈ stableSteps w order,
      ∃ rec2 rec1, recordOf s2f.meta rn2 n = some rec2 ∧
        recordOf s1f.meta rn1 n = some rec1 ∧
        rec2.status = .cached ∧
        (rec1.status = .completed ∨ rec1.status = .cached) ∧
        rec2.outputRefs = rec1.outputRefs ∧ n ∉ s2f.invoked := by
  rcases buildDag_deps_before w order hndw hbuild with ⟨hdeps, hndo⟩
  have hP8 : ∀ r ∈ s1f.meta, r.runName ≠ rn2 := by
    rcases (execOrder_extends w p rn1 b1 ctx1 order ⟨meta0, c0, [], []⟩ s1f
      true hrun1).1 with ⟨df, hdf, hdfp⟩
    have hdf2 : s1f.meta = meta0 ++ df := hdf
    intro r hr
    rw [hdf2] at hr
    rcases List.mem_append.mp hr with hr | hr
    · exact hm2 r hr
    · rw [(hdfp r hr).2.1]
      exact hrn
  intro n hn
  refine runs_agree w p rn1 rn2 b1 b2 ctx1 ctx2 s1f (stableSteps w order)
    (stableSteps_spec w order) hb2 hP8 order [] ⟨meta0, c0, [], []⟩
    ⟨s1f.meta, s1f.counter, [], []⟩ s2f okr2
    (by simpa using hndo)
    (fun l1 m l2 hsp st hdecl d hd => by
      simpa using hdeps l1 m l2 hsp st hdecl d hd)
    hrun1
    (fun r hr hrn1 => absurd hrn1 (hm1 r hr))
    (fun e he => by simp at he)
    (fun n2 _ hn2 => by simp at hn2)
    ⟨[], by simp, by simp⟩
    (fun m hm => by simp at hm)
    (fun e he => by simp at he)
    (fun n2 _ hn2 => by simp at hn2)
    hrun2 n hn ?_
  simpa using stableSteps_sub w order n hn

/-- Witness for C3: re-running the quickstart wiring caches importer
and trainer with the first run's artifact references. -/
theorem rerun_yields_cached_witness :
    ∃ rec2 rec1,
      recordOf
        [⟨"p", "r1", "importer", .completed, ⟨1, [], []⟩, [0, 1, 2, 3]⟩,
         ⟨"p", "r1", "trainer", .completed, ⟨2, [1], [0, 1]⟩, [4]⟩,
         ⟨"p", "r1", "evaluator", .completed, ⟨3, [], [2, 3, 4]⟩, [5]⟩,
         ⟨"p", "r2", "importer", .cached, ⟨1, [], []⟩, [0, 1, 2, 3]⟩,
         ⟨"p", "r2", "trainer", .cached, ⟨2, [1], [0, 1]⟩, [4]⟩,
         ⟨"p", "r2", "evaluator", .completed, ⟨3, [], [2, 3, 4]⟩, [6]⟩]
        "r2" "trainer" = some rec2 ∧
      recordOf
        [⟨"p", "r1", "importer", .completed, ⟨1, [], []⟩, [0, 1, 2, 3]⟩,
         ⟨"p", "r1", "trainer", .completed, ⟨2, [1], [0, 1]⟩, [4]⟩,
         ⟨"p", "r1", "evaluator", .completed, ⟨3, [], [2, 3, 4]⟩, [5]⟩]
        "r1" "trainer" = some rec1 ∧
      rec2.status = .cached ∧
      (rec1.status = .completed ∨ rec1.status = .cached) ∧
      rec2.outputRefs = rec1.outputRefs ∧ "trainer" ∉ ["evaluator"] :=
  rerun_yields_cached sampleWiring "p" "r1" "r2" (fun _ => true) (fun _ => true)
    ⟨0, 0, 0⟩ ⟨9, 9, 9⟩ [] 0 ["importer", "trainer", "evaluator"]
    ⟨[⟨"p", "r1", "importer", .completed, ⟨1, [], []⟩, [0, 1, 2, 3]⟩,
      ⟨"p", "r1", "trainer", .completed, ⟨2, [1], [0, 1]⟩, [4]⟩,
      ⟨"p", "r1", "evaluator", .completed, ⟨3, [], [2, 3, 4]⟩, [5]⟩], 6,
      [("importer", [0, 1, 2, 3]), ("trainer", [4]), ("evaluator", [5])],
      ["importer", "trainer", "evaluator"]⟩
    ⟨[⟨"p", "r1", "importer", .completed, ⟨1, [], []⟩, [0, 1, 2, 3]⟩,
      ⟨"p", "r1", "trainer", .completed, ⟨2, [1], [0, 1]⟩, [4]⟩,
      ⟨"p", "r1", "evaluator", .completed, ⟨3, [], [2, 3, 4]⟩, [5]⟩,
      ⟨"p", "r2", "importer", .cached, ⟨1, [], []⟩, [0, 1, 2, 3]⟩,
      ⟨"p", "r2", "trainer", .cached, ⟨2, [1], [0, 1]⟩, [4]⟩,
      ⟨"p", "r2", "evaluator", .completed, ⟨3, [], [2, 3, 4]⟩, [6]⟩], 7,
      [("importer", [0, 1, 2, 3]), ("trainer", [4]), ("evaluator", [6])],
      ["evaluator"]⟩
    true (by decide) (by decide) (by simp) (by simp) (by decide)
    (fun _ => rfl) (by decide) (by decide) "trainer" (by decide)

/-- C6: the CacheKey is a deterministic function of exactly the triple
(step code identity, resolved configuration, ordered input-artifact
identities); it does not depend on wall-clock time, process identity or
any other ambient signal. -/
theorem cacheKey_deterministic (ctx1 ctx2 : ExecContext) (c1 c2 : Nat)
    (cfg1 cfg2 : List Nat) (in1 in2 : List Nat)
    (hc : c1 = c2) (hcfg : cfg1 = cfg2) (hin : in1 = in2) :
    computeCacheKey ctx1 c1 cfg1 in1 = computeCacheKey ctx2 c2 cfg2 in2 := by
  subst hc
  subst hcfg
  subst hin
  rfl

/-- Witness for C6 at two different clocks, process ids and entropy. -/
theorem cacheKey_deterministic_witness :
    computeCacheKey { wallClock := 0, processId := 1, entropy := 2 } 7 [1, 2] [3] =
      computeCacheKey { wallClock := 99, processId := 42, entropy := 5 } 7 [1, 2] [3] :=
  cacheKey_deterministic _ _ 7 7 [1, 2] [1, 2] [3] [3] rfl rfl rfl

/-- C8: an Artifact Store write is atomic and write-once: a successful
write returns a reference resolving to the complete stored value and
changes no existing reference's value; a failed write leaves the store
unchanged, so no partially-visible artifact exists. -/
theorem artifact_write_atomic_write_once {V : Type} (s : ArtifactStore V)
    (rid sn outName : String) (v : V) (backendOk : Bool) (hwf : s.wf) :
    (∀ r, (writeArtifact s rid sn outName v backendOk).2 = .ok r →
      readArtifact (writeArtifact s rid sn outName v backendOk).1 r = some v ∧
      (∀ r' u, readArtifact s r' = some u →
        readArtifact (writeArtifact s rid sn outName v backendOk).1 r' = some u) ∧
      (writeArtifact s rid sn outName v backendOk).1.wf) ∧
    (∀ e, (writeArtifact s rid sn outName v backendOk).2 = .error e →
      (writeArtifact s rid sn outName v backendOk).1 = s) := by
  cases backendOk with
  | false =>
    refine ⟨?_, ?_⟩
    · intro r hr
      simp [writeArtifact] at hr
    · intro e _
      simp [writeArtifact]
  | true =>
    have hw1 : (writeArtifact s rid sn outName v true).1 =
        { nextId := s.nextId + 1, data := (s.nextId, v) :: s.data } := rfl
    refine ⟨?_, ?_⟩
    · intro r hr
      simp [writeArtifact] at hr
      refine ⟨?_, ?_, ?_⟩
      · rw [hw1]
        simp [readArtifact, ← hr]
      · intro r' u hu
        have hmem : ∃ q, q ∈ s.data ∧ q.1 = r'.id ∧ q.2 = u := by
          simp only [readArtifact, Option.map_eq_some'] at hu
          rcases hu with ⟨q, hq, hq2⟩
          have hpq := List.find?_some hq
          simp only [decide_eq_true_eq] at hpq
          exact ⟨q, List.mem_of_find?_eq_some hq, hpq, hq2⟩
        rcases hmem with ⟨q, hqmem, hq1, hq2⟩
        have hlt : r'.id < s.nextId := hq1 ▸ hwf q hqmem
        have hne : s.nextId ≠ r'.id := by omega
        rw [hw1]
        simpa [readArtifact, List.find?_cons, hne] using hu
      · intro q hq
        rw [hw1] at hq ⊢
        simp only [List.mem_cons] at hq
        show q.1 < s.nextId + 1
        rcases hq with hq | hq
        · subst hq
          omega
        · exact Nat.lt_succ_of_lt (hwf q hq)
    · intro e he
      simp [writeArtifact] at he

/-- Witness for C8 on a concrete store satisfying the invariant. -/
theorem artifact_write_atomic_write_once_witness :
    readArtifact
      (writeArtifact ({ nextId := 1, data := [(0, 5)] } : ArtifactStore Nat)
        "r1" "trainer" "model" 9 true).1 { id := 1 } = some 9 :=
  ((artifact_write_atomic_write_once { nextId := 1, data := [(0, 5)] }
      "r1" "trainer" "model" 9 true
      (by intro p hp; simp only [List.mem_singleton] at hp; subst hp; decide)).1
    { id := 1 } rfl).1

/-- C9: run names are unique within a pipeline: starting a run under an
existing name fails without creating a second run or overwriting the
existing one; a completed run is immutable, and histories are
append-only. -/
theorem run_names_unique_and_runs_immutable (p : PipelineRuns) (name ev : String) :
    ((p.runs.any (fun r => r.rname = name)) = true →
      createRun p name = (p, .error .duplicateRunName)) ∧
    ((p.runs.any (fun r => r.rname = name)) = false →
      (createRun p name).1.runs =
        p.runs ++ [{ rname := name, isCompleted := false, history := [] }] ∧
      (createRun p name).2 = .ok ()) ∧
    (∀ r, p.runs.find? (fun r => r.rname = name) = some r → r.isCompleted = true →
      appendRunEvent p name ev = (p, .error .runImmutable)) ∧
    (∀ q ∈ p.runs, ∃ q', q' ∈ (appendRunEvent p name ev).1.runs ∧
      q'.rname = q.rname ∧ q.history <+: q'.history) := by
  refine ⟨?_, ?_, ?_, ?_⟩
  · intro h
    simp [createRun, h]
  · intro h
    simp [createRun, h]
  · intro r hr hc
    simp [appendRunEvent, hr, hc]
  · intro q hq
    unfold appendRunEvent
    cases hfind : p.runs.find? (fun r => r.rname = name) with
    | none => exact ⟨q, hq, rfl, List.prefix_rfl⟩
    | some r =>
      cases hc : r.isCompleted with
      | true =>
        simp only [hc]
        exact ⟨q, hq, rfl, List.prefix_rfl⟩
      | false =>
        simp only [hc]
        by_cases hqn : q.rname = name
        · refine ⟨{ q with history := q.history ++ [ev] }, ?_, rfl, ?_⟩
          · simp only [Bool.false_eq_true, if_false, List.mem_map]
            exact ⟨q, hq, by simp [hqn]⟩
          · exact ⟨[ev], rfl⟩
        · refine ⟨q, ?_, rfl, List.prefix_rfl⟩
          simp only [Bool.false_eq_true, if_false, List.mem_map]
          exact ⟨q, hq, by simp [hqn]⟩

/-- Witness for C9: creating a run under an already-used name fails. -/
theorem run_names_unique_and_runs_immutable_witness :
    createRun { runs := [{ rname := "r1", isCompleted := true, history := [] }] } "r1" =
      ({ runs := [{ rname := "r1", isCompleted := true, history := [] }] },
        .error .duplicateRunName) :=
  (run_names_unique_and_runs_immutable
      { runs := [{ rname := "r1", isCompleted := true, history := [] }] } "r1" "ev").1
    (by decide)

end ZenML

namespace CoverageScript

/-- C10: if `coverage run -m pytest` exits nonzero, the script running
under `set -e` terminates immediately with that nonzero status and none
of `coverage combine`, `coverage report --show-missing`, `coverage xml`
is executed. -/
theorem script_aborts_on_pytest_failure (env : Cmd → Nat)
    (h : env .coverageRunPytest ≠ 0) :
    (runSetE env script).2 = env .coverageRunPytest ∧
    (runSetE env script).2 ≠ 0 ∧
    (runSetE env script).1 =
      [.assignTestSrc, .exportZenmlDebug, .exportAnalyticsOptOut, .coverageRunPytest] ∧
    Cmd.coverageCombine ∉ (runSetE env script).1 ∧
    Cmd.coverageReport ∉ (runSetE env script).1 ∧
    Cmd.coverageXml ∉ (runSetE env script).1 := by
  have hrun : runSetE env script =
      ([.assignTestSrc, .exportZenmlDebug, .exportAnalyticsOptOut, .coverageRunPytest],
        env .coverageRunPytest) := by
    simp [runSetE, script, exitOf, Cmd.alwaysZero, h]
  rw [hrun]
  refine ⟨rfl, h, rfl, ?_, ?_, ?_⟩ <;> simp

/-- Witness for C10 with pytest exiting 2. -/
theorem script_aborts_on_pytest_failure_witness :
    (runSetE (fun c => if c = Cmd.coverageRunPytest then 2 else 0) script).2 = 2 ∧
    Cmd.coverageCombine ∉
      (runSetE (fun c => if c = Cmd.coverageRunPytest then 2 else 0) script).1 :=
  ⟨(script_aborts_on_pytest_failure
      (fun c => if c = Cmd.coverageRunPytest then 2 else 0) (by decide)).1,
    (script_aborts_on_pytest_failure
      (fun c => if c = Cmd.coverageRunPytest then 2 else 0) (by decide)).2.2.2.1⟩

end CoverageScript
